import Mathlib

set_option autoImplicit false

/-!
Verification of the hvm4-pathfinding library against its specification.

The repository generates textual programs for an external term-rewriting
engine.  We shallowly embed, in Lean:

* the persistent radix-4 trie operations that every generated shortest-path
  program carries (`gen_hvm4_source` in `bench/hybrid_bf.c`, lines 134-209,
  and `gen_trie4_ops` in `lib/libhvm4_graph.c`, lines 179-213);
* the DAG dynamic-programming generator's program and the C reference
  computation (`bench/dag_dp.c`);
* the hybrid Bellman-Ford generator's program (`bench/hybrid_bf.c`);
* the runtime bridge (`c3lib/csrc/hvm4_bridge.c`) and the graph library API
  (`lib/libhvm4_graph.c`).

Conventions for reading the generated HVM4 text: a numeric pattern-match
`λ{0: a; λn. b}(x)` evaluates `a` when `x = 0` and otherwise evaluates `b`
with `n` bound to the scrutinee `x` itself (the repository's own `@xor_eq`
in `lib/libhvm4_graph.c` is only correct under this reading, and the
`@bf_loop` fuel accounting of `bench/hybrid_bf.c` matches the spec's
"exactly n-1 rounds" only under it).  We model such matches as `if x = 0`
conditionals.  Machine numbers of the engine are modelled as `ℕ`; the C
reference computation, which uses `uint32_t`, carries an explicit `% 2^32`.
-/

namespace HVM4

/-- Sentinel distance for unreachable nodes: `#define INF 999999` in
`bench/dag_dp.c` / `lib/libhvm4_graph.c` and `@INF = 999999` in the
generated programs. -/
def INF : ℕ := 999999

/-! ## Radix-4 trie

Constructors `#QE{}` (empty), `#QL{val}` (leaf) and `#Q{c0,c1,c2,c3}`
(branch) of the generated trie library. -/

inductive Trie4 where
  | QE : Trie4
  | QL (val : ℕ) : Trie4
  | Q (c0 c1 c2 c3 : Trie4) : Trie4
  deriving DecidableEq

/-- Translation of `@q4_get` (and its slot dispatcher `@q4_get_Q`) from
`bench/hybrid_bf.c` lines 152-162; the same operation is emitted by
`gen_trie4_ops` in `lib/libhvm4_graph.c` lines 181-190.  The slot is
`key % 4`, the remaining key `key / 4`, the remaining depth `depth - 1`;
the dispatcher's default arm is slot 3. -/
def q4_get (key depth : ℕ) : Trie4 → ℕ
  | .QE => INF
  | .QL val => val
  | .Q c0 c1 c2 c3 =>
    if key % 4 = 0 then q4_get (key / 4) (depth - 1) c0
    else if key % 4 = 1 then q4_get (key / 4) (depth - 1) c1
    else if key % 4 = 2 then q4_get (key / 4) (depth - 1) c2
    else q4_get (key / 4) (depth - 1) c3

/-- Translation of `@q4_get_lin` / `@q4_get_lin_Q` from `bench/hybrid_bf.c`
lines 135-150: a linear lookup that returns the value paired with a rebuilt
copy of the trie. -/
def q4_get_lin (key depth : ℕ) : Trie4 → ℕ × Trie4
  | .QE => (INF, .QE)
  | .QL val => (val, .QL val)
  | .Q c0 c1 c2 c3 =>
    if key % 4 = 0 then
      let p := q4_get_lin (key / 4) (depth - 1) c0; (p.1, .Q p.2 c1 c2 c3)
    else if key % 4 = 1 then
      let p := q4_get_lin (key / 4) (depth - 1) c1; (p.1, .Q c0 p.2 c2 c3)
    else if key % 4 = 2 then
      let p := q4_get_lin (key / 4) (depth - 1) c2; (p.1, .Q c0 c1 p.2 c3)
    else
      let p := q4_get_lin (key / 4) (depth - 1) c3; (p.1, .Q c0 c1 c2 p.2)

/-- Translation of the `#QE` arm of `@q4_set` together with `@q4_set_QE`
(`bench/hybrid_bf.c` lines 164-177): writing into an empty subtrie builds a
fresh spine of branches whose other children are `#QE{}`.  At depth 0 the
slot holds the leaf directly.  `gen_trie4_ops` emits the same construction
through `@q4_set_slot` (`lib/libhvm4_graph.c` lines 195-212). -/
def q4_set_fresh (key val : ℕ) : ℕ → Trie4
  | 0 => .QL val
  | d + 1 =>
    if key % 4 = 0 then .Q (q4_set_fresh (key / 4) val d) .QE .QE .QE
    else if key % 4 = 1 then .Q .QE (q4_set_fresh (key / 4) val d) .QE .QE
    else if key % 4 = 2 then .Q .QE .QE (q4_set_fresh (key / 4) val d) .QE
    else .Q .QE .QE .QE (q4_set_fresh (key / 4) val d)

/-- Translation of `@q4_set` / `@q4_set_Q` from `bench/hybrid_bf.c` lines
164-183 (equally `gen_trie4_ops`): an existing leaf is replaced outright,
an empty subtrie becomes a fresh spine, and a branch is path-copied along
the base-4 digits of the key. -/
def q4_set (key val depth : ℕ) : Trie4 → Trie4
  | .QL _ => .QL val
  | .QE => q4_set_fresh key val depth
  | .Q c0 c1 c2 c3 =>
    if key % 4 = 0 then .Q (q4_set (key / 4) val (depth - 1) c0) c1 c2 c3
    else if key % 4 = 1 then .Q c0 (q4_set (key / 4) val (depth - 1) c1) c2 c3
    else if key % 4 = 2 then .Q c0 c1 (q4_set (key / 4) val (depth - 1) c2) c3
    else .Q c0 c1 c2 (q4_set (key / 4) val (depth - 1) c3)

/-- Translation of the `#QE` arm of `@q4_min_update_f` together with
`@q4_muf_QE` (`bench/hybrid_bf.c` lines 185-198): past an empty node the
value is written unconditionally and the changed flag of the recursive
call (always 1) is propagated. -/
def q4_mu_fresh (key val : ℕ) : ℕ → Trie4 × ℕ
  | 0 => (.QL val, 1)
  | d + 1 =>
    let p := q4_mu_fresh (key / 4) val d
    if key % 4 = 0 then (.Q p.1 .QE .QE .QE, p.2)
    else if key % 4 = 1 then (.Q .QE p.1 .QE .QE, p.2)
    else if key % 4 = 2 then (.Q .QE .QE p.1 .QE, p.2)
    else (.Q .QE .QE .QE p.1, p.2)

/-- Translation of `@q4_min_update_f` / `@q4_muf_Q` from `bench/hybrid_bf.c`
lines 185-208: on a leaf holding `old`, write `min old val` and report
`changed = (val < old)`; past an empty node write `val` with `changed = 1`;
on a branch, path-copy and propagate the child's flag unmodified. -/
def q4_min_update_f (key val depth : ℕ) : Trie4 → Trie4 × ℕ
  | .QL old => if val < old then (.QL val, 1) else (.QL old, 0)
  | .QE => q4_mu_fresh key val depth
  | .Q c0 c1 c2 c3 =>
    if key % 4 = 0 then
      let p := q4_min_update_f (key / 4) val (depth - 1) c0; (.Q p.1 c1 c2 c3, p.2)
    else if key % 4 = 1 then
      let p := q4_min_update_f (key / 4) val (depth - 1) c1; (.Q c0 p.1 c2 c3, p.2)
    else if key % 4 = 2 then
      let p := q4_min_update_f (key / 4) val (depth - 1) c2; (.Q c0 c1 p.1 c3, p.2)
    else
      let p := q4_min_update_f (key / 4) val (depth - 1) c3; (.Q c0 c1 c2 p.1, p.2)

/-- Lookup as a partial map: `some old` when the digit path of `key` ends in
a leaf, `none` when it ends in an empty node.  This is the specification's
notion of "the previous value of `k` in `T`, or absent". -/
def q4_lookup (key depth : ℕ) : Trie4 → Option ℕ
  | .QE => none
  | .QL val => some val
  | .Q c0 c1 c2 c3 =>
    if key % 4 = 0 then q4_lookup (key / 4) (depth - 1) c0
    else if key % 4 = 1 then q4_lookup (key / 4) (depth - 1) c1
    else if key % 4 = 2 then q4_lookup (key / 4) (depth - 1) c2
    else q4_lookup (key / 4) (depth - 1) c3

/-- Well-formedness of a trie of a given depth: branches only above depth 0,
leaves only at depth 0 (the generated programs only ever construct tries of
this shape for the fixed depth `ceil(log4 n)`). -/
def q4_wf : ℕ → Trie4 → Bool
  | 0, .QE => true
  | 0, .QL _ => true
  | 0, .Q _ _ _ _ => false
  | _ + 1, .QE => true
  | _ + 1, .QL _ => false
  | d + 1, .Q c0 c1 c2 c3 => q4_wf d c0 && q4_wf d c1 && q4_wf d c2 && q4_wf d c3

/-! ### Trie lemmas -/

theorem mod4_cases (k : ℕ) : k % 4 = 0 ∨ k % 4 = 1 ∨ k % 4 = 2 ∨ k % 4 = 3 := by
  omega

/-- The linear get returns the ordinary get's value together with the
original trie, rebuilt unchanged. -/
theorem q4_get_lin_eq (key depth : ℕ) (T : Trie4) :
    q4_get_lin key depth T = (q4_get key depth T, T) := by
  induction T generalizing key depth with
  | QE => rfl
  | QL val => rfl
  | Q c0 c1 c2 c3 ih0 ih1 ih2 ih3 =>
    rcases mod4_cases key with h | h | h | h <;>
      simp [q4_get_lin, q4_get, h, ih0, ih1, ih2, ih3]

/-- Ordinary get is lookup with the `@INF` sentinel for absent keys. -/
theorem q4_get_eq_lookup (key depth : ℕ) (T : Trie4) :
    q4_get key depth T = (q4_lookup key depth T).getD INF := by
  induction T generalizing key depth with
  | QE => rfl
  | QL val => rfl
  | Q c0 c1 c2 c3 ih0 ih1 ih2 ih3 =>
    rcases mod4_cases key with h | h | h | h <;>
      simp [q4_get, q4_lookup, h, ih0, ih1, ih2, ih3]

theorem q4_lookup_fresh_same (key val : ℕ) (d : ℕ) (dep : ℕ) :
    q4_lookup key dep (q4_set_fresh key val d) = some val := by
  induction d generalizing key dep with
  | zero => rfl
  | succ d ih =>
    rcases mod4_cases key with h | h | h | h <;>
      simp [q4_set_fresh, q4_lookup, h, ih]

theorem q4_lookup_set_same (key val depth : ℕ) (T : Trie4) :
    q4_lookup key depth (q4_set key val depth T) = some val := by
  induction T generalizing key depth with
  | QE => exact q4_lookup_fresh_same key val depth depth
  | QL old => rfl
  | Q c0 c1 c2 c3 ih0 ih1 ih2 ih3 =>
    rcases mod4_cases key with h | h | h | h <;>
      simp [q4_set, q4_lookup, h, ih0, ih1, ih2, ih3]

/-- Round-trip at the same key, with no assumption on the prior trie. -/
theorem q4_get_set_same (key val depth : ℕ) (T : Trie4) :
    q4_get key depth (q4_set key val depth T) = val := by
  rw [q4_get_eq_lookup, q4_lookup_set_same]; rfl

/-- Splitting a key bounded by `4 ^ (d + 1)` into digit and rest. -/
theorem key_split {k k2 : ℕ} {d : ℕ} (hk : k < 4 ^ (d + 1)) (hk2 : k2 < 4 ^ (d + 1))
    (hne : k2 ≠ k) (hdig : k2 % 4 = k % 4) :
    k2 / 4 ≠ k / 4 ∧ k / 4 < 4 ^ d ∧ k2 / 4 < 4 ^ d := by
  have h4 : (0:ℕ) < 4 := by norm_num
  have hp : 4 ^ (d + 1) = 4 * 4 ^ d := by ring
  refine ⟨?_, ?_, ?_⟩
  · intro h
    apply hne
    omega
  · have := Nat.div_lt_iff_lt_mul h4 (x := k) (y := 4 ^ d)
    omega
  · have := Nat.div_lt_iff_lt_mul h4 (x := k2) (y := 4 ^ d)
    omega

theorem q4_lookup_fresh_other {key key2 : ℕ} (val : ℕ) {d : ℕ}
    (hk : key < 4 ^ d) (hk2 : key2 < 4 ^ d) (hne : key2 ≠ key) :
    q4_lookup key2 d (q4_set_fresh key val d) = none := by
  induction d generalizing key key2 with
  | zero => omega
  | succ d ih =>
    by_cases hdig : key2 % 4 = key % 4
    · obtain ⟨hrest, hb, hb2⟩ := key_split hk hk2 hne hdig
      rcases mod4_cases key with h | h | h | h <;>
        simp [q4_set_fresh, q4_lookup, h, hdig.trans h, ih hb hb2 hrest]
    · rcases mod4_cases key with h | h | h | h <;>
        rcases mod4_cases key2 with h2 | h2 | h2 | h2 <;>
        first
          | (exfalso; exact hdig (h2.trans h.symm))
          | simp [q4_set_fresh, q4_lookup, h, h2]

theorem q4_lookup_set_other {key key2 : ℕ} (val : ℕ) {depth : ℕ} {T : Trie4}
    (hwf : q4_wf depth T) (hk : key < 4 ^ depth) (hk2 : key2 < 4 ^ depth)
    (hne : key2 ≠ key) :
    q4_lookup key2 depth (q4_set key val depth T) = q4_lookup key2 depth T := by
  induction T generalizing key key2 depth with
  | QE => simp [q4_set, q4_lookup, q4_lookup_fresh_other val hk hk2 hne]
  | QL old =>
    cases depth with
    | zero => omega
    | succ d => simp [q4_wf] at hwf
  | Q c0 c1 c2 c3 ih0 ih1 ih2 ih3 =>
    cases depth with
    | zero => simp [q4_wf] at hwf
    | succ d =>
      simp only [q4_wf, Bool.and_eq_true] at hwf
      obtain ⟨⟨⟨h0, h1⟩, h2⟩, h3⟩ := hwf
      by_cases hdig : key2 % 4 = key % 4
      · obtain ⟨hrest, hb, hb2⟩ := key_split hk hk2 hne hdig
        rcases mod4_cases key with h | h | h | h <;>
          simp [q4_set, q4_lookup, h, hdig.trans h,
            ih0 h0 hb hb2 hrest, ih1 h1 hb hb2 hrest,
            ih2 h2 hb hb2 hrest, ih3 h3 hb hb2 hrest]
      · rcases mod4_cases key with h | h | h | h <;>
          rcases mod4_cases key2 with h2 | h2 | h2 | h2 <;>
          first
            | (exfalso; exact hdig (h2.trans h.symm))
            | simp [q4_set, q4_lookup, h, h2]

theorem q4_wf_QE (d : ℕ) : q4_wf d .QE := by cases d <;> rfl

theorem q4_wf_fresh (key val : ℕ) (d : ℕ) : q4_wf d (q4_set_fresh key val d) := by
  induction d generalizing key with
  | zero => rfl
  | succ d ih =>
    rcases mod4_cases key with h | h | h | h <;>
      simp [q4_set_fresh, q4_wf, h, ih, q4_wf_QE]

theorem q4_wf_set {depth : ℕ} {T : Trie4} (hwf : q4_wf depth T) (key val : ℕ) :
    q4_wf depth (q4_set key val depth T) := by
  induction T generalizing key depth with
  | QE => exact q4_wf_fresh key val depth
  | QL old =>
    cases depth with
    | zero => rfl
    | succ d => simp [q4_wf] at hwf
  | Q c0 c1 c2 c3 ih0 ih1 ih2 ih3 =>
    cases depth with
    | zero => simp [q4_wf] at hwf
    | succ d =>
      simp only [q4_wf, Bool.and_eq_true] at hwf
      obtain ⟨⟨⟨h0, h1⟩, h2⟩, h3⟩ := hwf
      rcases mod4_cases key with h | h | h | h <;>
        simp [q4_set, q4_wf, h, h0, h1, h2, h3, ih0 h0, ih1 h1, ih2 h2, ih3 h3]

/-- Past an empty node, min-update is exactly set with changed flag 1. -/
theorem q4_mu_fresh_eq (key val : ℕ) (d : ℕ) :
    q4_mu_fresh key val d = (q4_set_fresh key val d, 1) := by
  induction d generalizing key with
  | zero => rfl
  | succ d ih =>
    rcases mod4_cases key with h | h | h | h <;>
      simp [q4_mu_fresh, q4_set_fresh, h, ih]

/-- On an absent key, min-update behaves as an unconditional set and
reports a change. -/
theorem q4_mu_absent {key depth : ℕ} {T : Trie4} (val : ℕ)
    (h : q4_lookup key depth T = none) :
    q4_min_update_f key val depth T = (q4_set key val depth T, 1) := by
  induction T generalizing key depth with
  | QE => simp [q4_min_update_f, q4_set, q4_mu_fresh_eq]
  | QL old => simp [q4_lookup] at h
  | Q c0 c1 c2 c3 ih0 ih1 ih2 ih3 =>
    rcases mod4_cases key with hk | hk | hk | hk <;>
      simp only [q4_lookup, hk, if_true, if_false] at h <;>
      simp_all [q4_min_update_f, q4_set, hk]

/-- On a present key holding `old`, min-update with a smaller value is an
unconditional set with flag 1. -/
theorem q4_mu_present_lt {key depth : ℕ} {T : Trie4} {val old : ℕ}
    (h : q4_lookup key depth T = some old) (hlt : val < old) :
    q4_min_update_f key val depth T = (q4_set key val depth T, 1) := by
  induction T generalizing key depth with
  | QE => simp [q4_lookup] at h
  | QL o =>
    simp only [q4_lookup, Option.some.injEq] at h
    subst h
    simp [q4_min_update_f, q4_set, hlt]
  | Q c0 c1 c2 c3 ih0 ih1 ih2 ih3 =>
    rcases mod4_cases key with hk | hk | hk | hk <;>
      simp only [q4_lookup, hk, if_true, if_false] at h <;>
      simp_all [q4_min_update_f, q4_set, hk]

/-- On a present key holding `old`, min-update with a value that is not
smaller leaves the trie unchanged and reports flag 0. -/
theorem q4_mu_present_ge {key depth : ℕ} {T : Trie4} {val old : ℕ}
    (h : q4_lookup key depth T = some old) (hge : ¬ val < old) :
    q4_min_update_f key val depth T = (T, 0) := by
  induction T generalizing key depth with
  | QE => simp [q4_lookup] at h
  | QL o =>
    simp only [q4_lookup, Option.some.injEq] at h
    subst h
    simp [q4_min_update_f, hge]
  | Q c0 c1 c2 c3 ih0 ih1 ih2 ih3 =>
    rcases mod4_cases key with hk | hk | hk | hk <;>
      simp only [q4_lookup, hk, if_true, if_false] at h <;>
      simp_all [q4_min_update_f, hk]

/-! ## Trie depth

`ceil_log4` appears identically as `ceil_log4` in `bench/hybrid_bf.c`
lines 105-110 and as `ceil_log4_u32` in `lib/libhvm4_graph.c` lines 46-55:
depth 1 for `n ≤ 4`, otherwise the loop `d = 1, cap = 4; while (cap < n)
{ d++; cap *= 4; }`.  The loop is modelled with explicit fuel (`n` steps,
which is more than enough since `cap` quadruples). -/

def ceil_log4_go (n : ℕ) : ℕ → ℕ → ℕ → ℕ
  | 0, d, _ => d
  | f + 1, d, cap => if cap < n then ceil_log4_go n f (d + 1) (cap * 4) else d

def ceil_log4 (n : ℕ) : ℕ :=
  if n ≤ 4 then 1 else ceil_log4_go n n 1 4

theorem ceil_log4_go_spec (n : ℕ) :
    ∀ f d cap, n ≤ 4 ^ f * cap →
      d ≤ ceil_log4_go n f d cap ∧ n ≤ 4 ^ (ceil_log4_go n f d cap - d) * cap := by
  intro f
  induction f with
  | zero =>
    intro d cap h
    simpa [ceil_log4_go] using h
  | succ f ih =>
    intro d cap h
    by_cases hc : cap < n
    · have h4 : n ≤ 4 ^ f * (cap * 4) := by
        calc n ≤ 4 ^ (f + 1) * cap := h
        _ = 4 ^ f * (cap * 4) := by ring
      obtain ⟨hd, hb⟩ := ih (d + 1) (cap * 4) h4
      refine ⟨?_, ?_⟩
      · simp only [ceil_log4_go, hc, if_true]
        omega
      · simp only [ceil_log4_go, hc, if_true]
        have he : 4 ^ (ceil_log4_go n f (d + 1) (cap * 4) - d) * cap =
            4 ^ (ceil_log4_go n f (d + 1) (cap * 4) - (d + 1)) * (cap * 4) := by
          have h1 : ceil_log4_go n f (d + 1) (cap * 4) - d =
              (ceil_log4_go n f (d + 1) (cap * 4) - (d + 1)) + 1 := by omega
          rw [h1, pow_succ]
          ring
        rw [he]
        exact hb
    · constructor
      · simp [ceil_log4_go, hc]
      · simp only [ceil_log4_go, hc, if_false]
        simpa using Nat.le_of_not_lt hc

/-- The fixed trie depth covers the key space `0..n-1`. -/
theorem le_pow4_ceil_log4 (n : ℕ) : n ≤ 4 ^ ceil_log4 n := by
  by_cases h4 : n ≤ 4
  · simp only [ceil_log4, h4, if_true]
    omega
  · simp only [ceil_log4, h4, if_false]
    have hfuel : n ≤ 4 ^ n * 4 := by
      have := Nat.lt_pow_self (by norm_num : 1 < 4) (n := n)
      omega
    obtain ⟨hd, hb⟩ := ceil_log4_go_spec n n 1 4 hfuel
    calc n ≤ 4 ^ (ceil_log4_go n n 1 4 - 1) * 4 := hb
    _ = 4 ^ ceil_log4_go n n 1 4 := by
        conv_rhs => rw [← Nat.sub_add_cancel hd]
        rw [pow_succ]

/-! ## Claim C2: trie round-trip -/

/-- C2: for every key `k` in `0..n-1`, every value `v`, and every
well-formed radix-4 trie `T` of the fixed depth `ceil(log4 n)`,
`get(k, depth, set(k, v, depth, T))` returns `v` regardless of `T`'s prior
contents. -/
theorem trie_roundtrip (n k v depth : ℕ) (T : Trie4)
    (hdepth : depth = ceil_log4 n) (hk : k < n) (hwf : q4_wf depth T) :
    q4_get k depth (q4_set k v depth T) = v :=
  q4_get_set_same k v depth T

theorem trie_roundtrip_witness :
    (1 : ℕ) = ceil_log4 3 ∧ 2 < 3 ∧ q4_wf 1 (.Q .QE (.QL 9) .QE .QE) ∧
      q4_get 2 1 (q4_set 2 7 1 (.Q .QE (.QL 9) .QE .QE)) = 7 :=
  ⟨by decide, by decide, by decide,
    trie_roundtrip 3 2 7 1 (.Q .QE (.QL 9) .QE .QE) (by decide) (by decide) (by decide)⟩

/-! ## Claim C3: trie min-update -/

/-- C3: after `min_update(k, v, depth, T)`, the value stored at `k` is `v`
when `k` was absent (the path ended in `#QE`, so `min(v, +infinity) = v`)
and `min(v, old)` when the path ended in `#QL{old}`; the changed flag is
unconditionally 1 in the absent case and `v < old` in the leaf case.
Additionally, for values within the sentinel range the result is
`min(v, get(k, depth, T))` where absent keys read as the `@INF` sentinel. -/
theorem trie_min_update (n k v depth : ℕ) (T : Trie4)
    (hdepth : depth = ceil_log4 n) (hk : k < n) (hwf : q4_wf depth T) :
    (q4_lookup k depth T = none →
        q4_get k depth (q4_min_update_f k v depth T).1 = v ∧
          (q4_min_update_f k v depth T).2 = 1) ∧
    (∀ old, q4_lookup k depth T = some old →
        q4_get k depth (q4_min_update_f k v depth T).1 = min v old ∧
          (q4_min_update_f k v depth T).2 = (if v < old then 1 else 0)) ∧
    (v ≤ INF →
        q4_get k depth (q4_min_update_f k v depth T).1 =
          min v (q4_get k depth T)) := by
  refine ⟨?_, ?_, ?_⟩
  · intro h
    rw [q4_mu_absent v h]
    exact ⟨q4_get_set_same k v depth T, rfl⟩
  · intro old h
    by_cases hlt : v < old
    · rw [q4_mu_present_lt h hlt]
      refine ⟨?_, by simp [hlt]⟩
      rw [q4_get_set_same]
      omega
    · rw [q4_mu_present_ge h hlt]
      refine ⟨?_, by simp [hlt]⟩
      rw [q4_get_eq_lookup, h]
      simp only [Option.getD_some]
      omega
  · intro hv
    rcases hlook : q4_lookup k depth T with _ | old
    · rw [q4_mu_absent v hlook, q4_get_set_same, q4_get_eq_lookup, hlook]
      simp only [Option.getD_none]
      unfold INF at hv ⊢
      omega
    · by_cases hlt : v < old
      · rw [q4_mu_present_lt hlook hlt, q4_get_set_same,
          q4_get_eq_lookup, hlook]
        simp only [Option.getD_some]
        omega
      · rw [q4_mu_present_ge hlook hlt]
        simp only [q4_get_eq_lookup, hlook, Option.getD_some]
        omega

theorem trie_min_update_witness :
    q4_get 3 2 (q4_min_update_f 3 42 2 .QE).1 = 42 ∧
      (q4_min_update_f 3 42 2 .QE).2 = 1 :=
  (trie_min_update 5 3 42 2 .QE (by decide) (by decide) (by decide)).1 (by decide)

/-! ## Native graph store (`lib/libhvm4_graph.c`)

The opaque handle `struct hvm4_graph` holds `n_nodes`, a growable edge
array with its `capacity`, and the edge count (`n_edges`, here the length
of the list).  Result codes are those of
`lib/dist/include/libhvm4_graph.h`. -/

inductive HResult where
  | OK
  | ERR_INVALID_PARAM
  | ERR_ALLOC
  | ERR_HVM4_RUNTIME
  | ERR_NO_PATH
  deriving DecidableEq

structure HGraph where
  n_nodes : ℕ
  capacity : ℕ
  edges : List (ℕ × ℕ × ℕ)
  deriving DecidableEq

/-- Translation of `hvm4_graph_add_edge` (`lib/libhvm4_graph.c` lines
409-429).  A null handle or out-of-range endpoint is an invalid parameter;
a full edge array doubles its capacity and reallocates, which can fail
(`allocOk` models the success of `realloc` — note the C code doubles the
`capacity` field before attempting the reallocation, so a failed growth
leaves the doubled capacity but the old edges). -/
def hvm4_graph_add_edge (allocOk : Bool) (g : Option HGraph)
    (src dst weight : ℕ) : Option HGraph × HResult :=
  match g with
  | none => (none, .ERR_INVALID_PARAM)
  | some g =>
    if src ≥ g.n_nodes ∨ dst ≥ g.n_nodes then (some g, .ERR_INVALID_PARAM)
    else if g.edges.length ≥ g.capacity then
      if allocOk then
        (some { g with capacity := g.capacity * 2,
                       edges := g.edges ++ [(src, dst, weight)] }, .OK)
      else
        (some { g with capacity := g.capacity * 2 }, .ERR_ALLOC)
    else
      (some { g with edges := g.edges ++ [(src, dst, weight)] }, .OK)

/-- Translation of `hvm4_graph_add_biedge` (`lib/libhvm4_graph.c` lines
431-442): add `(a, b, w)`, return its code if it failed, otherwise add
`(b, a, w)` and return that code — with no rollback of the first edge. -/
def hvm4_graph_add_biedge (al1 al2 : Bool) (g : Option HGraph)
    (a b weight : ℕ) : Option HGraph × HResult :=
  let r1 := hvm4_graph_add_edge al1 g a b weight
  if r1.2 ≠ .OK then r1
  else hvm4_graph_add_edge al2 r1.1 b a weight

/-- A successful or failed `add_edge` call never loses edges: on success
exactly the new edge is appended, on failure the edge list is unchanged. -/
theorem add_edge_edges (al : Bool) (g : HGraph) (s d w : ℕ) :
    ∃ g2 r, hvm4_graph_add_edge al (some g) s d w = (some g2, r) ∧
      ((r = .OK ∧ g2.edges = g.edges ++ [(s, d, w)]) ∨
        (r ≠ .OK ∧ g2.edges = g.edges)) := by
  by_cases hr : s ≥ g.n_nodes ∨ d ≥ g.n_nodes
  · exact ⟨g, .ERR_INVALID_PARAM, by simp [hvm4_graph_add_edge, hr],
      Or.inr (by simp)⟩
  · by_cases hg : g.edges.length ≥ g.capacity
    · cases al with
      | true =>
        exact ⟨{ g with capacity := g.capacity * 2,
                        edges := g.edges ++ [(s, d, w)] }, .OK,
          by simp [hvm4_graph_add_edge, hr, hg], Or.inl ⟨rfl, rfl⟩⟩
      | false =>
        exact ⟨{ g with capacity := g.capacity * 2 }, .ERR_ALLOC,
          by simp [hvm4_graph_add_edge, hr, hg], Or.inr ⟨by simp, rfl⟩⟩
    · exact ⟨{ g with edges := g.edges ++ [(s, d, w)] }, .OK,
        by simp [hvm4_graph_add_edge, hr, hg], Or.inl ⟨rfl, rfl⟩⟩

/-! ## Claim C9: biedge leaves the first edge on second failure -/

/-- C9: `add_biedge` adds `(a, b, w)` and then `(b, a, w)`; when the first
addition succeeds, the call returns exactly the second addition's result
(graph and code), and whatever that code is, the first edge is already in
the graph — on the second addition's failure it is not rolled back and the
second addition's error code is returned. -/
theorem add_biedge_no_rollback (g : HGraph) (a b weight : ℕ) (al1 al2 : Bool)
    (h1 : (hvm4_graph_add_edge al1 (some g) a b weight).2 = .OK) :
    ∃ g1, (hvm4_graph_add_edge al1 (some g) a b weight).1 = some g1 ∧
      g1.edges = g.edges ++ [(a, b, weight)] ∧
      hvm4_graph_add_biedge al1 al2 (some g) a b weight =
        hvm4_graph_add_edge al2 (some g1) b a weight ∧
      (∀ g2 r, hvm4_graph_add_edge al2 (some g1) b a weight = (some g2, r) →
        (r ≠ .OK → g2.edges = g.edges ++ [(a, b, weight)]) ∧
        (r = .OK → g2.edges = g.edges ++ [(a, b, weight), (b, a, weight)])) := by
  obtain ⟨g1, r1, heq, hcases⟩ := add_edge_edges al1 g a b weight
  have hr1 : r1 = .OK := by
    have hsnd := congrArg Prod.snd heq
    simp only at hsnd
    rw [hsnd] at h1
    exact h1
  subst hr1
  rcases hcases with ⟨_, hedges⟩ | ⟨hne, _⟩
  · refine ⟨g1, by simp [heq], hedges, ?_, ?_⟩
    · simp [hvm4_graph_add_biedge, heq]
    · intro g2 r h2
      obtain ⟨g2', r', heq2, hcases2⟩ := add_edge_edges al2 g1 b a weight
      rw [heq2] at h2
      rw [Prod.mk.injEq, Option.some.injEq] at h2
      obtain ⟨rfl, rfl⟩ := h2
      rcases hcases2 with ⟨hok, he⟩ | ⟨hne2, he⟩
      · exact ⟨fun hc => absurd hok hc, fun _ => by simp [he, hedges]⟩
      · exact ⟨fun _ => by simp [he, hedges], fun hc => absurd hc hne2⟩
  · exact absurd rfl hne

theorem add_biedge_no_rollback_witness :
    (hvm4_graph_add_biedge true false (some ⟨2, 1, []⟩) 0 1 5).2 = .ERR_ALLOC ∧
      ∃ gfin, (hvm4_graph_add_biedge true false (some ⟨2, 1, []⟩) 0 1 5).1 = some gfin ∧
        gfin.edges = [(0, 1, 5)] := by
  obtain ⟨g1, hg1, hedges, hbi, hprop⟩ :=
    add_biedge_no_rollback ⟨2, 1, []⟩ 0 1 5 true false (by decide)
  have hg1v : g1 = (⟨2, 1, [(0, 1, 5)]⟩ : HGraph) := by
    have hsome : (hvm4_graph_add_edge true (some ⟨2, 1, []⟩) 0 1 5).1 =
        some (⟨2, 1, [(0, 1, 5)]⟩ : HGraph) := by decide
    rw [hg1] at hsome
    exact Option.some.inj hsome
  subst hg1v
  have h2 : hvm4_graph_add_edge false (some (⟨2, 1, [(0, 1, 5)]⟩ : HGraph)) 1 0 5 =
      (some ⟨2, 2, [(0, 1, 5)]⟩, .ERR_ALLOC) := by decide
  obtain ⟨hfail, _⟩ := hprop ⟨2, 2, [(0, 1, 5)]⟩ .ERR_ALLOC h2
  refine ⟨by rw [hbi, h2], ⟨2, 2, [(0, 1, 5)]⟩, by rw [hbi, h2], ?_⟩
  simpa using hfail (by decide)

/-! ## Runtime bridge arena state and reset (`c3lib/csrc/hvm4_bridge.c`,
`lib/libhvm4_graph.c`)

The arena state is process-wide in C (`BOOK`, `HEAP`, `TABLE`, parser and
evaluator bookkeeping, primitive table); we model it as an explicit state
record.  Engine-internal helpers called by the bridge (`prim_init`,
`heap_init_slices`) live outside `src/`; their effect is abstracted as
values they install. -/

structure EngineHooks where
  primInit : ℕ → ℕ
  initSlices : ℕ

structure BridgeState where
  book : ℕ → ℕ
  tableLen : ℕ
  heap : ℕ → ℕ
  slices : ℕ
  freeLists : ℕ
  parseBindsLen : ℕ
  parseFreshLab : ℕ
  parseSeenFilesLen : ℕ
  parseForkSide : ℤ
  fresh : ℕ
  wnfItrs : ℕ → ℕ
  wnfStackAllocated : ℕ → Bool
  wnfSPos : ℕ → ℕ
  tid : ℕ
  primDefs : ℕ → ℕ

/-- Translation of `hvm4_lib_reset` (`c3lib/csrc/hvm4_bridge.c` lines
57-97): free the TABLE strings and zero `TABLE_LEN`, `memset` `BOOK` to
zero, release the heap's physical pages with `madvise(MADV_DONTNEED)`
(released anonymous pages read back as zeros), re-initialise the heap
slices, reset the parser globals (`PARSE_BINDS_LEN = 0`,
`PARSE_FRESH_LAB = 0x800000`, `PARSE_SEEN_FILES_LEN = 0`,
`PARSE_FORK_SIDE = -1`, `FRESH = 1`), reset the WNF iteration counters and
stack positions of allocated banks, set the thread id to 0, and clear and
re-register the primitive table. -/
def hvm4_lib_reset (hooks : EngineHooks) (s : BridgeState) : BridgeState :=
  { s with
    tableLen := 0
    book := fun _ => 0
    heap := fun _ => 0
    slices := hooks.initSlices
    parseBindsLen := 0
    parseFreshLab := 0x800000
    parseSeenFilesLen := 0
    parseForkSide := -1
    fresh := 1
    wnfItrs := fun _ => 0
    wnfSPos := fun t => if s.wnfStackAllocated t then 1 else s.wnfSPos t
    tid := 0
    primDefs := hooks.primInit }

/-- Translation of `reset_hvm4` (`lib/libhvm4_graph.c` lines 291-332):
identical to `hvm4_lib_reset` except that it additionally calls
`heap_free_reset()` to clear the heap free lists. -/
def reset_hvm4 (hooks : EngineHooks) (s : BridgeState) : BridgeState :=
  { hvm4_lib_reset hooks s with freeLists := 0 }

/-! ## Claim C6: reset leaves no symbol or heap state behind -/

/-- C6: after any positive number of consecutive `reset` calls (through
either the bridge's `hvm4_lib_reset` or the library's `reset_hvm4`), every
symbol-table entry is zero — so looking up any symbol defined by a previous
run finds an undefined (zero) `BOOK` entry — the symbol table is empty, and
the heap holds no previous contents. -/
theorem reset_clears_previous_state (hooks : EngineHooks) (s : BridgeState)
    (k : ℕ) (hk : 1 ≤ k) :
    (∀ id, ((hvm4_lib_reset hooks)^[k] s).book id = 0) ∧
      ((hvm4_lib_reset hooks)^[k] s).tableLen = 0 ∧
      (∀ a, ((hvm4_lib_reset hooks)^[k] s).heap a = 0) ∧
      (∀ id, ((reset_hvm4 hooks)^[k] s).book id = 0) ∧
      ((reset_hvm4 hooks)^[k] s).tableLen = 0 ∧
      (∀ a, ((reset_hvm4 hooks)^[k] s).heap a = 0) := by
  obtain ⟨j, rfl⟩ : ∃ j, k = j + 1 := ⟨k - 1, by omega⟩
  rw [Function.iterate_succ_apply', Function.iterate_succ_apply']
  exact ⟨fun id => rfl, rfl, fun a => rfl, fun id => rfl, rfl, fun a => rfl⟩

/-- Example arena state with a previously defined symbol (entry 5 nonzero),
a nonempty symbol table and nonzero heap words. -/
def staleBridgeState : BridgeState where
  book := fun id => if id = 5 then 77 else 0
  tableLen := 6
  heap := fun a => a + 1
  slices := 4
  freeLists := 9
  parseBindsLen := 12
  parseFreshLab := 0x800123
  parseSeenFilesLen := 2
  parseForkSide := 1
  fresh := 41
  wnfItrs := fun _ => 8
  wnfStackAllocated := fun t => t = 0
  wnfSPos := fun _ => 30
  tid := 0
  primDefs := fun _ => 3

theorem reset_clears_previous_state_witness :
    ((hvm4_lib_reset ⟨fun _ => 1, 0⟩)^[2] staleBridgeState).book 5 = 0 ∧
      ((reset_hvm4 ⟨fun _ => 1, 0⟩)^[2] staleBridgeState).tableLen = 0 :=
  ⟨(reset_clears_previous_state ⟨fun _ => 1, 0⟩ staleBridgeState 2 (by omega)).1 5,
    (reset_clears_previous_state ⟨fun _ => 1, 0⟩ staleBridgeState 2
      (by omega)).2.2.2.2.1⟩

/-! ## Result-term extraction (`extract_nums`)

`extract_nums` appears identically in `c3lib/csrc/hvm4_bridge.c` lines
109-144 and `lib/libhvm4_graph.c` lines 218-252.  Result terms are numeric
leaves (`NUM`, contributing one value), constructors `C00`..`C16` whose
children are walked in heap order (`C00` contributes nothing; the special
`C02` cons-cell case recurses head then tail, which coincides with the
generic constructor loop for arity 2), and any other tag, which
contributes nothing. -/

inductive HTerm where
  | num (v : ℕ)
  | ctor (cs : List HTerm)
  | other

mutual

/-- Translation of `extract_nums`: write each numeric leaf at the current
position when it is below `max_out` (dropping it otherwise), but always
advance the position, and return the final position (the value count). -/
def extract_nums (t : HTerm) (out : ℕ → ℕ) (pos max_out : ℕ) : (ℕ → ℕ) × ℕ :=
  match t with
  | .num v => (if pos < max_out then Function.update out pos v else out, pos + 1)
  | .ctor cs => extract_children cs out pos max_out
  | .other => (out, pos)

/-- The constructor-children loop of `extract_nums`. -/
def extract_children (cs : List HTerm) (out : ℕ → ℕ) (pos max_out : ℕ) :
    (ℕ → ℕ) × ℕ :=
  match cs with
  | [] => (out, pos)
  | c :: rest =>
    let p := extract_nums c out pos max_out
    extract_children rest p.1 p.2 max_out

end

mutual

/-- The numeric values of a result term, in extraction order. -/
def hterm_values : HTerm → List ℕ
  | .num v => [v]
  | .ctor cs => hterm_values_list cs
  | .other => []

def hterm_values_list : List HTerm → List ℕ
  | [] => []
  | c :: rest => hterm_values c ++ hterm_values_list rest

end

mutual

/-- Extraction writes exactly the first `max_out - pos` values into the
window starting at `pos` and counts all of them. -/
theorem extract_nums_spec (t : HTerm) (out : ℕ → ℕ) (pos mx : ℕ) :
    extract_nums t out pos mx =
      (fun i => if pos ≤ i ∧ i < pos + (hterm_values t).length ∧ i < mx
          then (hterm_values t).getD (i - pos) 0 else out i,
        pos + (hterm_values t).length) := by
  match t with
  | .num v =>
    simp only [extract_nums, hterm_values, List.length_singleton]
    refine Prod.ext ?_ rfl
    funext i
    by_cases hpm : pos < mx
    · simp only [hpm, if_true, Function.update]
      by_cases hip : i = pos
      · subst hip
        simp [hpm]
      · have : ¬ (pos ≤ i ∧ i < pos + 1 ∧ i < mx) := by omega
        simp [hip, this]
    · have : ∀ i, ¬ (pos ≤ i ∧ i < pos + 1 ∧ i < mx) := by omega
      simp [hpm, this]
  | .ctor cs =>
    simpa only [extract_nums, hterm_values] using extract_children_spec cs out pos mx
  | .other =>
    simp only [extract_nums, hterm_values, List.length_nil, Nat.add_zero]
    refine Prod.ext ?_ rfl
    funext i
    have : ¬ (pos ≤ i ∧ i < pos ∧ i < mx) := by omega
    simp [this]

theorem extract_children_spec (cs : List HTerm) (out : ℕ → ℕ) (pos mx : ℕ) :
    extract_children cs out pos mx =
      (fun i => if pos ≤ i ∧ i < pos + (hterm_values_list cs).length ∧ i < mx
          then (hterm_values_list cs).getD (i - pos) 0 else out i,
        pos + (hterm_values_list cs).length) := by
  match cs with
  | [] =>
    simp only [extract_children, hterm_values_list, List.length_nil, Nat.add_zero]
    refine Prod.ext ?_ rfl
    funext i
    have : ¬ (pos ≤ i ∧ i < pos ∧ i < mx) := by omega
    simp [this]
  | c :: rest =>
    have hc := extract_nums_spec c out pos mx
    simp only [extract_children, hc]
    have hr := extract_children_spec rest
      (fun i => if pos ≤ i ∧ i < pos + (hterm_values c).length ∧ i < mx
        then (hterm_values c).getD (i - pos) 0 else out i)
      (pos + (hterm_values c).length) mx
    simp only [hr, hterm_values_list, List.length_append]
    refine Prod.ext ?_ (by omega)
    funext i
    by_cases h2 : pos + (hterm_values c).length ≤ i ∧
        i < pos + (hterm_values c).length + (hterm_values_list rest).length ∧ i < mx
    · have hcond : pos ≤ i ∧
          i < pos + ((hterm_values c).length + (hterm_values_list rest).length) ∧
          i < mx := by omega
      simp only [h2, if_true, hcond, if_true]
      rw [List.getD_append_right]
      · have hidx : i - pos - (hterm_values c).length =
            i - (pos + (hterm_values c).length) := by omega
        rw [hidx]
        simp
      · omega
    · simp only [h2, if_false]
      by_cases h1 : pos ≤ i ∧ i < pos + (hterm_values c).length ∧ i < mx
      · have hcond : pos ≤ i ∧
            i < pos + ((hterm_values c).length + (hterm_values_list rest).length) ∧
            i < mx := by omega
        simp only [h1, if_true, hcond, if_true]
        rw [List.getD_append]
        omega
      · have hcond : ¬ (pos ≤ i ∧
            i < pos + ((hterm_values c).length + (hterm_values_list rest).length) ∧
            i < mx) := by omega
        simp only [h1, if_false, hcond, if_false]

end

/-! ## Execution pipeline (`hvm4_run` in `c3lib/csrc/hvm4_bridge.c` lines
159-230, `run_hvm4` in `lib/libhvm4_graph.c` lines 257-286)

The call copies the source into a private buffer (`malloc` may fail),
parses it (`parse_def`, external engine, populating `BOOK`), resolves the
entry symbol `"main"` (`table_find`, external), and either normalizes the
term and extracts numbers, or — in collapse mode — captures stdout through
`open_memstream` (which may also fail to allocate) and parses one integer
per captured line, ignoring non-numeric lines.  The outcomes of the
external pieces are the environment of one call. -/

structure RunEnv where
  allocOk : Bool
  memstreamOk : Bool
  parsedBook : ℕ → ℕ
  mainId : ℕ
  resultTerm : HTerm
  capturedLines : List (Option ℕ)

/-- The collapse-mode line loop of `hvm4_run` (lines 203-221): while there
are lines and the count is below capacity, a line parsing as a number is
written and counted, any other line is skipped. -/
def collapse_lines (mx : ℕ) : List (Option ℕ) → (ℕ → ℕ) → ℕ → (ℕ → ℕ) × ℕ
  | [], out, c => (out, c)
  | l :: rest, out, c =>
    if c < mx then
      match l with
      | some v => collapse_lines mx rest (Function.update out c v) (c + 1)
      | none => collapse_lines mx rest out c
    else (out, c)

/-- Translation of `hvm4_run`: `-1` when the source copy cannot be
allocated; `-1` when, after parsing, `BOOK[table_find("main")]` is zero;
in collapse mode, `-1` when `open_memstream` fails, otherwise the count of
captured numeric lines; in normalize mode the extraction count. -/
def hvm4_run (env : RunEnv) (collapse_limit : ℤ) (out : ℕ → ℕ)
    (max_out : ℕ) : ℤ × (ℕ → ℕ) :=
  if ¬ env.allocOk then (-1, out)
  else if env.parsedBook env.mainId = 0 then (-1, out)
  else if collapse_limit > 0 then
    if ¬ env.memstreamOk then (-1, out)
    else
      let p := collapse_lines max_out env.capturedLines out 0
      ((p.2 : ℤ), p.1)
  else
    let p := extract_nums env.resultTerm out 0 max_out
    ((p.2 : ℤ), p.1)

/-- Translation of `run_hvm4` from `lib/libhvm4_graph.c`: the same pipeline
without a collapse mode. -/
def run_hvm4 (env : RunEnv) (out : ℕ → ℕ) (max_out : ℕ) : ℤ × (ℕ → ℕ) :=
  if ¬ env.allocOk then (-1, out)
  else if env.parsedBook env.mainId = 0 then (-1, out)
  else
    let p := extract_nums env.resultTerm out 0 max_out
    ((p.2 : ℤ), p.1)

/-! ## Claim C8: the error conditions of the run operation -/

/-- C8 counterexample: with the source copy allocated and `"main"`
resolving to a defined entry, a collapse-mode run still returns `-1` when
`open_memstream` fails to allocate the capture buffer
(`c3lib/csrc/hvm4_bridge.c` line 190: `if (!memf) return -1;`).  The
claim's two listed conditions are both false, yet the result is `-1`, not
a nonnegative count. -/
theorem run_minus_one_extra_case :
    (hvm4_run ⟨true, false, fun _ => 1, 0, .other, []⟩ 1 (fun _ => 0) 4).1 = -1 ∧
      (⟨true, false, fun _ => 1, 0, .other, []⟩ : RunEnv).allocOk = true ∧
      ((⟨true, false, fun _ => 1, 0, .other, []⟩ : RunEnv).parsedBook 0 ≠ 0) := by
  refine ⟨?_, rfl, by decide⟩
  rfl

theorem collapse_lines_count_le (mx : ℕ) (ls : List (Option ℕ)) (out : ℕ → ℕ)
    (c : ℕ) (hc : c ≤ mx) : (collapse_lines mx ls out c).2 ≤ mx := by
  induction ls generalizing out c with
  | nil => simpa [collapse_lines] using hc
  | cons l rest ih =>
    by_cases hlt : c < mx
    · cases l with
      | none => simpa [collapse_lines, hlt] using ih out c hc
      | some v =>
        simpa [collapse_lines, hlt] using
          ih (Function.update out c v) (c + 1) (by omega)
    · simpa [collapse_lines, hlt] using hc

/-- C8 (amended): the bridge's `hvm4_run` returns `-1` exactly when the
private source copy cannot be allocated, or the entry symbol `"main"` does
not resolve to a nonzero `BOOK` entry after parsing, or — in collapse
mode — the output-capture stream cannot be allocated; in every other case
it returns a nonnegative count (the number of extracted values in
normalize mode, the number of captured numeric lines in collapse mode).
The library's `run_hvm4`, which has no collapse mode, satisfies the claim
as stated. -/
theorem run_error_conditions (env : RunEnv) (cl : ℤ) (out : ℕ → ℕ) (mx : ℕ) :
    ((hvm4_run env cl out mx).1 = -1 ↔
        (¬ env.allocOk ∨ env.parsedBook env.mainId = 0 ∨
          (cl > 0 ∧ ¬ env.memstreamOk))) ∧
      (¬ ((hvm4_run env cl out mx).1 = -1) →
        (0 ≤ (hvm4_run env cl out mx).1 ∧
          (cl > 0 →
            (hvm4_run env cl out mx).1 =
              ((collapse_lines mx env.capturedLines out 0).2 : ℤ)) ∧
          (¬ cl > 0 →
            (hvm4_run env cl out mx).1 =
              ((hterm_values env.resultTerm).length : ℤ)))) ∧
      ((run_hvm4 env out mx).1 = -1 ↔
        (¬ env.allocOk ∨ env.parsedBook env.mainId = 0)) ∧
      (¬ ((run_hvm4 env out mx).1 = -1) →
        (run_hvm4 env out mx).1 = ((hterm_values env.resultTerm).length : ℤ)) := by
  have hx := extract_nums_spec env.resultTerm out 0 mx
  by_cases ha : env.allocOk
  · by_cases hb : env.parsedBook env.mainId = 0
    · simp [hvm4_run, run_hvm4, ha, hb]
    · by_cases hcl : cl > 0
      · by_cases hm : env.memstreamOk
        · simp [hvm4_run, run_hvm4, ha, hb, hcl, hm, hx]
        · simp [hvm4_run, run_hvm4, ha, hb, hcl, hm, hx]
      · simp [hvm4_run, run_hvm4, ha, hb, hcl, hx]
  · simp [hvm4_run, run_hvm4, ha]

theorem run_error_conditions_witness :
    (hvm4_run ⟨true, true, fun _ => 1, 0, .ctor [.num 4, .num 6], []⟩ 0
        (fun _ => 0) 8).1 = 2 := by
  have h := (run_error_conditions ⟨true, true, fun _ => 1, 0,
    .ctor [.num 4, .num 6], []⟩ 0 (fun _ => 0) 8).2.1 (by decide)
  have h2 := h.2.2 (by decide)
  rw [h2]
  decide

/-! ## Claim C5: the truncation contract of the extraction pipeline -/

/-- C5: when the result term carries more numeric values than
`output_capacity`, the pipeline still returns the full count (which
therefore exceeds the capacity), materializes exactly the first
`capacity` values in the output buffer (positions at and beyond the
capacity are untouched), and those first `capacity` entries coincide with
the corresponding entries of an unrestricted run (any capacity at least
the true count), over any output buffers. -/
theorem truncation_contract (env : RunEnv) (out out2 : ℕ → ℕ) (cap big : ℕ)
    (hok : env.allocOk) (hmain : env.parsedBook env.mainId ≠ 0)
    (hcap : cap < (hterm_values env.resultTerm).length)
    (hbig : (hterm_values env.resultTerm).length ≤ big) :
    (hvm4_run env 0 out cap).1 = ((hterm_values env.resultTerm).length : ℤ) ∧
      (cap : ℤ) < (hvm4_run env 0 out cap).1 ∧
      (∀ i, i < cap →
        (hvm4_run env 0 out cap).2 i = (hterm_values env.resultTerm).getD i 0) ∧
      (∀ i, cap ≤ i → (hvm4_run env 0 out cap).2 i = out i) ∧
      (∀ i, i < cap →
        (hvm4_run env 0 out cap).2 i = (hvm4_run env 0 out2 big).2 i) := by
  have hx := extract_nums_spec env.resultTerm out 0 cap
  have hx2 := extract_nums_spec env.resultTerm out2 0 big
  have hrun : hvm4_run env 0 out cap =
      (((hterm_values env.resultTerm).length : ℤ),
        fun i => if 0 ≤ i ∧ i < 0 + (hterm_values env.resultTerm).length ∧ i < cap
          then (hterm_values env.resultTerm).getD (i - 0) 0 else out i) := by
    simp [hvm4_run, hok, hmain, hx]
  have hrun2 : hvm4_run env 0 out2 big =
      (((hterm_values env.resultTerm).length : ℤ),
        fun i => if 0 ≤ i ∧ i < 0 + (hterm_values env.resultTerm).length ∧ i < big
          then (hterm_values env.resultTerm).getD (i - 0) 0 else out2 i) := by
    simp [hvm4_run, hok, hmain, hx2]
  rw [hrun, hrun2]
  refine ⟨rfl, ?_, ?_, ?_, ?_⟩
  · show (cap : ℤ) < ((hterm_values env.resultTerm).length : ℤ)
    exact_mod_cast hcap
  · intro i hi
    have hcond : 0 ≤ i ∧ i < 0 + (hterm_values env.resultTerm).length ∧ i < cap := by
      omega
    show (if 0 ≤ i ∧ i < 0 + (hterm_values env.resultTerm).length ∧ i < cap
        then (hterm_values env.resultTerm).getD (i - 0) 0 else out i) =
      (hterm_values env.resultTerm).getD i 0
    rw [if_pos hcond, Nat.sub_zero]
  · intro i hi
    have hcond : ¬ (0 ≤ i ∧ i < 0 + (hterm_values env.resultTerm).length ∧
        i < cap) := by omega
    show (if 0 ≤ i ∧ i < 0 + (hterm_values env.resultTerm).length ∧ i < cap
        then (hterm_values env.resultTerm).getD (i - 0) 0 else out i) = out i
    rw [if_neg hcond]
  · intro i hi
    have hcond : 0 ≤ i ∧ i < 0 + (hterm_values env.resultTerm).length ∧ i < cap := by
      omega
    have hcond2 : 0 ≤ i ∧ i < 0 + (hterm_values env.resultTerm).length ∧ i < big := by
      omega
    show (if 0 ≤ i ∧ i < 0 + (hterm_values env.resultTerm).length ∧ i < cap
        then (hterm_values env.resultTerm).getD (i - 0) 0 else out i) =
      (if 0 ≤ i ∧ i < 0 + (hterm_values env.resultTerm).length ∧ i < big
        then (hterm_values env.resultTerm).getD (i - 0) 0 else out2 i)
    rw [if_pos hcond, if_pos hcond2]

theorem truncation_contract_witness :
    (hvm4_run ⟨true, true, fun _ => 1, 0, .ctor [.num 4, .ctor [.num 6, .num 9]], []⟩
        0 (fun _ => 0) 2).1 = 3 ∧
      (hvm4_run ⟨true, true, fun _ => 1, 0, .ctor [.num 4, .ctor [.num 6, .num 9]], []⟩
        0 (fun _ => 0) 2).2 1 = 6 ∧
      (hvm4_run ⟨true, true, fun _ => 1, 0, .ctor [.num 4, .ctor [.num 6, .num 9]], []⟩
        0 (fun _ => 0) 2).2 2 = 0 := by
  obtain ⟨h1, h2, h3, h4, h5⟩ := truncation_contract
    ⟨true, true, fun _ => 1, 0, .ctor [.num 4, .ctor [.num 6, .num 9]], []⟩
    (fun _ => 0) (fun _ => 0) 2 3 (by decide) (by decide) (by decide) (by decide)
  refine ⟨by rw [h1]; decide, by rw [h3 1 (by decide)]; decide,
    by rw [h4 2 (by decide)]⟩

/-! ## Point-to-point reachability (`hvm4_reachable`, `lib/libhvm4_graph.c`
lines 656-707)

The generated program (lines 674-690) carries the adjacency list emitted by
`gen_adjacency_list` (lines 135-159; arm `u` holds the destinations of the
edges whose source is `u`, in edge order, and the default arm is `[]`), the
list helpers `@member`, `@any_in`, `@append`, `@concat_map`, `@expand`, and
the alternating bidirectional search `@bfs`, which returns the literal
sentinel 999 once `dist > max`.  The `@bfs` recursion is modelled with
explicit fuel; the driver calls it with fuel `max + 2`, which the
`dist > max` guard makes sufficient (each recursive call increments
`dist`). -/

/-- Adjacency function of the generated `@adj`: destinations of the edges
leaving `u`, in edge order; `[]` for out-of-range nodes. -/
def adjOf (g : HGraph) (u : ℕ) : List ℕ :=
  if u < g.n_nodes then (g.edges.filter (fun e => e.1 = u)).map (fun e => e.2.1) else []

/-- Translation of `@member`: 1 when `x` occurs in the list, else 0. -/
def bfs_member (x : ℕ) : List ℕ → ℕ
  | [] => 0
  | h :: t => if h = x then 1 else bfs_member x t

/-- Translation of `@any_in`: 1 when some element of the second list occurs
in `ys`, else 0. -/
def bfs_any_in (ys : List ℕ) : List ℕ → ℕ
  | [] => 0
  | h :: t => if bfs_member h ys = 0 then bfs_any_in ys t else 1

/-- Translation of `@append`. -/
def bfs_append : List ℕ → List ℕ → List ℕ
  | [], ys => ys
  | h :: t, ys => h :: bfs_append t ys

/-- Translation of `@concat_map`. -/
def bfs_concat_map (f : ℕ → List ℕ) : List ℕ → List ℕ
  | [] => []
  | h :: t => bfs_append (f h) (bfs_concat_map f t)

/-- Translation of `@expand`: union (with duplicates) of the neighbours of
every frontier member. -/
def bfs_expand (adj : ℕ → List ℕ) (frontier : List ℕ) : List ℕ :=
  bfs_concat_map adj frontier

/-- Translation of `@bfs`: returns 999 once `dist > max`; returns `dist` as
soon as the two frontiers intersect; otherwise expands the forward frontier
and recurses with the roles of the two frontiers swapped. -/
def bfs_gen (adj : ℕ → List ℕ) : ℕ → List ℕ → List ℕ → ℕ → ℕ → ℕ
  | 0, _, _, _, _ => 999
  | f + 1, fwd, bwd, dist, mx =>
    if dist > mx then 999
    else if bfs_any_in bwd fwd = 0 then
      bfs_gen adj f bwd (bfs_expand adj fwd) (dist + 1) mx
    else dist

/-- Specification-side outcome of the search: `some d` when the frontiers
first intersect at round `d ≤ max`, `none` when the round count exceeds the
depth limit without an intersection. -/
def bfs_steps (adj : ℕ → List ℕ) (mx : ℕ) : ℕ → List ℕ → List ℕ → ℕ → Option ℕ
  | 0, _, _, _ => none
  | f + 1, fwd, bwd, dist =>
    if dist > mx then none
    else if bfs_any_in bwd fwd = 0 then
      bfs_steps adj mx f bwd (bfs_expand adj fwd) (dist + 1)
    else some dist

theorem bfs_gen_eq_steps (adj : ℕ → List ℕ) (mx : ℕ) :
    ∀ f fwd bwd dist,
      bfs_gen adj f fwd bwd dist mx = (bfs_steps adj mx f fwd bwd dist).getD 999 := by
  intro f
  induction f with
  | zero => intro fwd bwd dist; rfl
  | succ f ih =>
    intro fwd bwd dist
    by_cases hd : dist > mx
    · simp [bfs_gen, bfs_steps, hd]
    · by_cases hi : bfs_any_in bwd fwd = 0
      · simp [bfs_gen, bfs_steps, hd, hi, ih]
      · simp [bfs_gen, bfs_steps, hd, hi]

theorem bfs_steps_bounds (adj : ℕ → List ℕ) (mx : ℕ) :
    ∀ f fwd bwd dist d, bfs_steps adj mx f fwd bwd dist = some d →
      dist ≤ d ∧ d ≤ mx := by
  intro f
  induction f with
  | zero => intro fwd bwd dist d h; simp [bfs_steps] at h
  | succ f ih =>
    intro fwd bwd dist d h
    by_cases hd : dist > mx
    · simp [bfs_steps, hd] at h
    · by_cases hi : bfs_any_in bwd fwd = 0
      · simp only [bfs_steps, hd, if_false, hi, if_true] at h
        have := ih _ _ _ _ h
        omega
      · simp only [bfs_steps, hd, if_false, hi, if_true] at h
        simp at h
        omega

/-- Translation of `hvm4_reachable` (`lib/libhvm4_graph.c` lines 656-707):
parameter checks, the `source == target` shortcut (the engine is never
invoked there), then generation and execution of the BFS program, mapping a
result `≥ 999` to `HVM4_ERR_NO_PATH` (leaving `*dist` unwritten) and any
other result to `HVM4_OK` with `*dist` set.  The returned triple is (code,
contents written through `dist`, whether the engine was invoked).  The
generated program always evaluates to a single numeral, so `run_hvm4`
returns count 1 and the `HVM4_ERR_HVM4_RUNTIME` branch is not taken. -/
def hvm4_reachable (g : Option HGraph) (dist_ok : Bool)
    (source target max_depth : ℕ) : HResult × Option ℕ × Bool :=
  match g with
  | none => (.ERR_INVALID_PARAM, none, false)
  | some g =>
    if ¬ dist_ok then (.ERR_INVALID_PARAM, none, false)
    else if source ≥ g.n_nodes ∨ target ≥ g.n_nodes then
      (.ERR_INVALID_PARAM, none, false)
    else if source = target then (.OK, some 0, false)
    else
      let r := bfs_gen (adjOf g) (max_depth + 2) [source] [target] 0 max_depth
      if r ≥ 999 then (.ERR_NO_PATH, none, true)
      else (.OK, some r, true)

/-! ## Claim C10: the source = target shortcut -/

/-- C10: for every graph and in-range node `s`, `hvm4_reachable` with
`source = target = s` returns `HVM4_OK`, writes distance 0, and never
invokes the engine — on any graph, including one with no edges. -/
theorem reachable_self (g : HGraph) (s max_depth : ℕ) (hs : s < g.n_nodes) :
    hvm4_reachable (some g) true s s max_depth = (.OK, some 0, false) := by
  have h : ¬ (s ≥ g.n_nodes ∨ s ≥ g.n_nodes) := by omega
  simp [hvm4_reachable, h, hs]

theorem reachable_self_witness :
    hvm4_reachable (some ⟨3, 16, []⟩) true 2 2 7 = (.OK, some 0, false) :=
  reachable_self ⟨3, 16, []⟩ 2 7 (by decide)

/-! ## Claim C7: reachability outcome codes -/

/-- C7 (amended): for in-range `source ≠ target` and a depth limit below
the 999 sentinel, `hvm4_reachable` returns `HVM4_OK` with `*dist` set to
the round count at which the two frontiers first intersect, returns
`HVM4_ERR_NO_PATH` exactly when the round count exceeds the depth limit
without an intersection, and never returns the generic runtime-error
code. -/
theorem reachable_outcomes (g : HGraph) (s t mx : ℕ)
    (hs : s < g.n_nodes) (ht : t < g.n_nodes) (hne : s ≠ t) (hmx : mx < 999) :
    (∀ d, bfs_steps (adjOf g) mx (mx + 2) [s] [t] 0 = some d →
        hvm4_reachable (some g) true s t mx = (.OK, some d, true)) ∧
      (bfs_steps (adjOf g) mx (mx + 2) [s] [t] 0 = none →
        hvm4_reachable (some g) true s t mx = (.ERR_NO_PATH, none, true)) ∧
      (hvm4_reachable (some g) true s t mx).1 ≠ .ERR_HVM4_RUNTIME := by
  have hv : ¬ (s ≥ g.n_nodes ∨ t ≥ g.n_nodes) := by omega
  have hgen := bfs_gen_eq_steps (adjOf g) mx (mx + 2) [s] [t] 0
  refine ⟨?_, ?_, ?_⟩
  · intro d hd
    obtain ⟨h1, h2⟩ := bfs_steps_bounds (adjOf g) mx (mx + 2) [s] [t] 0 d hd
    have hr : bfs_gen (adjOf g) (mx + 2) [s] [t] 0 mx = d := by
      rw [hgen, hd]; rfl
    have hlt : ¬ d ≥ 999 := by omega
    simp [hvm4_reachable, hv, hne, hr, hlt]
  · intro hd
    have hr : bfs_gen (adjOf g) (mx + 2) [s] [t] 0 mx = 999 := by
      rw [hgen, hd]; rfl
    simp [hvm4_reachable, hv, hne, hr]
  · by_cases hge : bfs_gen (adjOf g) (mx + 2) [s] [t] 0 mx ≥ 999 <;>
      simp [hvm4_reachable, hv, hne, hge]

theorem reachable_outcomes_witness :
    hvm4_reachable (some ⟨2, 16, [(0, 1, 1)]⟩) true 0 1 5 = (.OK, some 1, true) :=
  (reachable_outcomes ⟨2, 16, [(0, 1, 1)]⟩ 0 1 5 (by decide) (by decide)
    (by decide) (by decide)).1 1 (by decide)

/-! ### Counterexample to C7 as stated: intersection at a round `≥ 999`

A directed chain `0 → 1 → ... → M-1` with a self-loop on the last node
makes the two frontiers first intersect at round `2M - 3` (the backward
frontier sits on the self-looping target while the forward frontier walks
the chain, one frontier advancing per round).  With `M = 501` and a depth
limit of 1000, the frontiers intersect at round 999 within the limit, yet
the result value 999 collides with the sentinel and is reported as
`HVM4_ERR_NO_PATH`. -/

def chainEdges (M : ℕ) : List (ℕ × ℕ × ℕ) :=
  ((List.range (M - 1)).map fun i => (i, i + 1, 1)) ++ [(M - 1, M - 1, 1)]

def chainGraph (M : ℕ) : HGraph := ⟨M, M, chainEdges M⟩

theorem bfs_append_nil (l : List ℕ) : bfs_append l [] = l := by
  induction l with
  | nil => rfl
  | cons h t ih => simp [bfs_append, ih]

theorem bfs_expand_single (adj : ℕ → List ℕ) (k : ℕ) :
    bfs_expand adj [k] = adj k := by
  simp [bfs_expand, bfs_concat_map, bfs_append_nil]

theorem filter_chain_src (u : ℕ) : ∀ (len s : ℕ),
    ((List.range' s len).map (fun i => ((i, i + 1, 1) : ℕ × ℕ × ℕ))).filter
        (fun e => e.1 = u) =
      if s ≤ u ∧ u < s + len then [(u, u + 1, 1)] else [] := by
  intro len
  induction len with
  | zero =>
    intro s
    have : ¬ (s ≤ u ∧ u < s + 0) := by omega
    simp [this]
  | succ len ih =>
    intro s
    rw [List.range'_succ]
    by_cases hs : s = u
    · subst hs
      have h2 : ¬ (s + 1 ≤ s ∧ s < s + 1 + len) := by omega
      have h1 : s ≤ s ∧ s < s + (len + 1) := by omega
      simp [List.filter_cons, ih (s + 1), h1, h2]
    · have hcond : (if s ≤ u ∧ u < s + (len + 1) then
          [((u, u + 1, 1) : ℕ × ℕ × ℕ)] else []) =
            (if s + 1 ≤ u ∧ u < s + 1 + len then [(u, u + 1, 1)] else []) := by
        by_cases ha : s ≤ u ∧ u < s + (len + 1)
        · have hb : s + 1 ≤ u ∧ u < s + 1 + len := by omega
          simp [ha, hb]
        · have hb : ¬ (s + 1 ≤ u ∧ u < s + 1 + len) := by omega
          simp [ha, hb]
      simp [List.filter_cons, hs, ih (s + 1), hcond]

theorem adj_chain_mid {M u : ℕ} (hM : 2 ≤ M) (hu : u < M - 1) :
    adjOf (chainGraph M) u = [u + 1] := by
  have hun : u < M := by omega
  have hne : ¬ ((M - 1 : ℕ) = u) := by omega
  have hc : (0 : ℕ) ≤ u ∧ u < 0 + (M - 1) := by omega
  simp only [adjOf, chainGraph, chainEdges, hun, if_true, List.filter_append,
    List.range_eq_range']
  rw [filter_chain_src u (M - 1) 0]
  simp [hc, List.filter_cons, hne, hu]

theorem adj_chain_last {M : ℕ} (hM : 2 ≤ M) :
    adjOf (chainGraph M) (M - 1) = [M - 1] := by
  have hun : M - 1 < M := by omega
  have hc : ¬ ((0 : ℕ) ≤ M - 1 ∧ M - 1 < 0 + (M - 1)) := by omega
  simp only [adjOf, chainGraph, chainEdges, hun, if_true, List.filter_append,
    List.range_eq_range']
  rw [filter_chain_src (M - 1) (M - 1) 0]
  simp [hc, List.filter_cons]

theorem chain_steps {M mx : ℕ} (hM : 2 ≤ M) (hmx : 2 * M - 3 ≤ mx) :
    ∀ j k f, k + j = M - 2 → 2 * j + 2 ≤ f →
      bfs_steps (adjOf (chainGraph M)) mx f [k] [M - 1] (2 * k) =
        some (2 * M - 3) := by
  intro j
  induction j with
  | zero =>
    intro k f hk hf
    obtain ⟨f', rfl⟩ : ∃ f', f = f' + 2 := ⟨f - 2, by omega⟩
    have hk' : k = M - 2 := by omega
    subst hk'
    have hd1 : ¬ (2 * (M - 2) > mx) := by omega
    have hne : ¬ ((M - 1 : ℕ) = M - 2) := by omega
    have hstep1 : bfs_any_in [M - 1] [M - 2] = 0 := by
      simp [bfs_any_in, bfs_member, hne]
    have hexp : bfs_expand (adjOf (chainGraph M)) [M - 2] = [M - 1] := by
      rw [bfs_expand_single, adj_chain_mid hM (by omega)]
      congr 1
      omega
    have hd2 : ¬ (2 * (M - 2) + 1 > mx) := by omega
    have hstep2 : bfs_any_in [M - 1] [M - 1] ≠ 0 := by
      simp [bfs_any_in, bfs_member]
    simp only [bfs_steps, hd1, if_false, hstep1, if_true, hexp, hd2, hstep2]
    have : 2 * (M - 2) + 1 = 2 * M - 3 := by omega
    simp [this, hstep2]
  | succ j ih =>
    intro k f hk hf
    obtain ⟨f', rfl⟩ : ∃ f', f = f' + 2 := ⟨f - 2, by omega⟩
    have hkM : k < M - 2 := by omega
    have hd1 : ¬ (2 * k > mx) := by omega
    have hne : ¬ ((M - 1 : ℕ) = k) := by omega
    have hstep1 : bfs_any_in [M - 1] [k] = 0 := by
      simp [bfs_any_in, bfs_member, hne]
    have hexp : bfs_expand (adjOf (chainGraph M)) [k] = [k + 1] :=
      (bfs_expand_single _ k).trans (adj_chain_mid hM (by omega))
    have hd2 : ¬ (2 * k + 1 > mx) := by omega
    have hne2 : ¬ ((k + 1 : ℕ) = M - 1) := by omega
    have hstep2 : bfs_any_in [k + 1] [M - 1] = 0 := by
      simp [bfs_any_in, bfs_member, hne2]
    have hexp2 : bfs_expand (adjOf (chainGraph M)) [M - 1] = [M - 1] :=
      (bfs_expand_single _ (M - 1)).trans (adj_chain_last hM)
    have h2k : 2 * k + 1 + 1 = 2 * (k + 1) := by omega
    simp only [bfs_steps, hd1, if_false, hstep1, if_true, hexp, hd2, hstep2,
      hexp2, h2k]
    exact ih (k + 1) f' (by omega) (by omega)

/-- C7 counterexample: on the 501-node chain with a self-loop on node 500,
with `source = 0`, `target = 500` and depth limit 1000, the frontiers first
intersect at round 999 (within the limit), but `hvm4_reachable` reports
`HVM4_ERR_NO_PATH` because the round count collides with the `≥ 999`
sentinel test — where the claim demands `HVM4_OK` with `*dist = 999`. -/
theorem reachable_sentinel_conflation :
    bfs_steps (adjOf (chainGraph 501)) 1000 1002 [0] [500] 0 = some 999 ∧
      (999 : ℕ) ≤ 1000 ∧
      hvm4_reachable (some (chainGraph 501)) true 0 500 1000 =
        (.ERR_NO_PATH, none, true) := by
  have hsteps : bfs_steps (adjOf (chainGraph 501)) 1000 1002 [0] [500] 0 =
      some 999 := by
    have h := @chain_steps 501 1000 (by omega) (by omega)
      499 0 1002 (by omega) (by omega)
    simpa using h
  refine ⟨hsteps, by omega, ?_⟩
  have hr : bfs_gen (adjOf (chainGraph 501)) 1002 [0] [500] 0 1000 = 999 := by
    rw [bfs_gen_eq_steps, hsteps]
    rfl
  have hn : (chainGraph 501).n_nodes = 501 := rfl
  have hne : (0 : ℕ) ≠ 500 := by omega
  simp [hvm4_reachable, hne, hr, hn]

/-! ## Hybrid Bellman-Ford generated program (`gen_hvm4_source` in
`bench/hybrid_bf.c` lines 123-274)

The generated program stores distances in the radix-4 trie and reads the
graph through the native-store primitives.  A state `#S{dist, changed}` is
threaded through edge relaxations, node loops and rounds.  Loops that the
text drives by a guard (`i < deg`, `i < @V`, `i + 1 < @V`) are modelled
with the remaining iteration count as structural fuel; `@bf_loop`'s fuel is
the explicit round argument of the text.  `%compact` is an evaluation
barrier and denotes the identity. -/

/-- Modelled from the spec: the Native Graph Store primitives `%graph_deg`,
`%graph_target` and `%graph_weight` installed by `hvm4_graph_setup` (called
at `bench/hybrid_bf.c` line 316 but implemented outside `src/`).  Per the
spec's CSR contract the edges of node `u` occupy
`col_idx/weight[row_ptr[u] .. row_ptr[u+1])`; a graph is therefore given
here as its adjacency rows `adj : node → List (target × weight)`, the
degree being the row length and target/weight-at-offset the row entries. -/
def graph_deg (adj : ℕ → List (ℕ × ℕ)) (u : ℕ) : ℕ := (adj u).length

def graph_target (adj : ℕ → List (ℕ × ℕ)) (u i : ℕ) : ℕ := ((adj u).getD i (0, 0)).1

def graph_weight (adj : ℕ → List (ℕ × ℕ)) (u i : ℕ) : ℕ := ((adj u).getD i (0, 0)).2

/-- Translation of `@relax_edges`: for offsets `i` while `i < deg`, read
the edge's target and weight, min-update the distance trie with
`du + weight`, and accumulate the changed flag; the fuel argument is the
remaining count `deg - i`. -/
def relax_edges (adj : ℕ → List (ℕ × ℕ)) (depth u du : ℕ) :
    ℕ → ℕ → Trie4 × ℕ → Trie4 × ℕ
  | 0, _, st => st
  | r + 1, i, st =>
    let v := graph_target adj u i
    let nd := du + graph_weight adj u i
    let p := q4_min_update_f v nd depth st.1
    relax_edges adj depth u du r (i + 1) (p.1, st.2 + p.2)

/-- Translation of `@relax_node_et` / `@relax_node_go`: read `du` through
the linear get; when `du < @INF` relax all out-edges of `u`, otherwise
leave the state unchanged. -/
def relax_node (adj : ℕ → List (ℕ × ℕ)) (depth u : ℕ) (st : Trie4 × ℕ) :
    Trie4 × ℕ :=
  let p := q4_get_lin u depth st.1
  if p.1 < INF then relax_edges adj depth u p.1 (graph_deg adj u) 0 (p.2, st.2)
  else (p.2, st.2)

/-- Translation of `@node_loop`: relax nodes `i` while `i < @V`; the fuel
is the remaining count `n - i`. -/
def node_loop (adj : ℕ → List (ℕ × ℕ)) (depth : ℕ) :
    ℕ → ℕ → Trie4 × ℕ → Trie4 × ℕ
  | 0, _, st => st
  | r + 1, i, st => node_loop adj depth r (i + 1) (relax_node adj depth i st)

/-- Translation of `@relax_round_et`: one full pass over all nodes,
starting from a cleared changed flag. -/
def relax_round (adj : ℕ → List (ℕ × ℕ)) (depth n : ℕ) (st : Trie4 × ℕ) :
    Trie4 × ℕ :=
  node_loop adj depth n 0 (st.1, 0)

/-- Translation of `@bf_loop` / `@bf_check` / `@bf_check_go`: with fuel 0
return the state; otherwise run a round, stop with a cleared flag if the
round reported no change, and otherwise continue with fuel less one. -/
def bf_loop (adj : ℕ → List (ℕ × ℕ)) (depth n : ℕ) :
    ℕ → Trie4 × ℕ → Trie4 × ℕ
  | 0, st => st
  | k + 1, st =>
    let p := relax_round adj depth n st
    if p.2 = 0 then (p.1, 0) else bf_loop adj depth n k (p.1, 1)

/-- Translation of `@init_dist`: the trie holding distance 0 at the
source. -/
def init_dist (depth source : ℕ) : Trie4 := q4_set source 0 depth .QE

/-- Translation of `@bf`: `rounds = n > 1 ? n - 1 : 1` rounds of `bf_loop`
from the initial state with flag 1 (`bench/hybrid_bf.c` lines 125 and
256-257). -/
def bf_result (adj : ℕ → List (ℕ × ℕ)) (n source : ℕ) : Trie4 × ℕ :=
  bf_loop adj (ceil_log4 n) n (if n > 1 then n - 1 else 1)
    (init_dist (ceil_log4 n) source, 1)

/-- Translation of `@extract_go`: emit the value of the incoming linear-get
pair and continue while `i + 1 < @V`; the fuel is `n - 1 - i`. -/
def extract_go (depth : ℕ) : ℕ → ℕ → ℕ × Trie4 → List ℕ
  | 0, _, p => [p.1]
  | r + 1, i, p =>
    p.1 :: extract_go depth r (i + 1) (q4_get_lin (i + 1) depth p.2)

/-- Translation of `@main`: the empty list for `@V = 0`, otherwise the
distances of nodes `0..n-1` extracted from the final trie. -/
def bf_program_output (adj : ℕ → List (ℕ × ℕ)) (n source : ℕ) : List ℕ :=
  if n = 0 then []
  else
    extract_go (ceil_log4 n) (n - 1) 0
      (q4_get_lin 0 (ceil_log4 n) (bf_result adj n source).1)

/-! ### Round counting (claim C4) -/

/-- Number of relaxation rounds `bf_loop` actually executes. -/
def bf_loop_rounds (adj : ℕ → List (ℕ × ℕ)) (depth n : ℕ) :
    ℕ → Trie4 × ℕ → ℕ
  | 0, _ => 0
  | k + 1, st =>
    let p := relax_round adj depth n st
    if p.2 = 0 then 1 else 1 + bf_loop_rounds adj depth n k (p.1, 1)

/-- Number of relaxation rounds the generated program executes. -/
def bf_program_rounds (adj : ℕ → List (ℕ × ℕ)) (n source : ℕ) : ℕ :=
  bf_loop_rounds adj (ceil_log4 n) n (if n > 1 then n - 1 else 1)
    (init_dist (ceil_log4 n) source, 1)

/-- State reached after `j` rounds of the `bf_loop` recursion. -/
def round_iter (adj : ℕ → List (ℕ × ℕ)) (depth n : ℕ) :
    ℕ → Trie4 × ℕ → Trie4 × ℕ
  | 0, st => st
  | j + 1, st =>
    ((relax_round adj depth n (round_iter adj depth n j st)).1, 1)

theorem round_iter_shift (adj : ℕ → List (ℕ × ℕ)) (depth n : ℕ)
    (st : Trie4 × ℕ) :
    ∀ j, round_iter adj depth n j ((relax_round adj depth n st).1, 1) =
      round_iter adj depth n (j + 1) st := by
  intro j
  induction j with
  | zero => rfl
  | succ j ih => simp [round_iter, ih]

theorem bf_loop_rounds_le (adj : ℕ → List (ℕ × ℕ)) (depth n : ℕ) :
    ∀ k st, bf_loop_rounds adj depth n k st ≤ k := by
  intro k
  induction k with
  | zero => intro st; simp [bf_loop_rounds]
  | succ k ih =>
    intro st
    by_cases h : (relax_round adj depth n st).2 = 0
    · simp [bf_loop_rounds, h]
    · simp only [bf_loop_rounds, h, if_false]
      have := ih ((relax_round adj depth n st).1, 1)
      omega

theorem bf_loop_rounds_full (adj : ℕ → List (ℕ × ℕ)) (depth n : ℕ) :
    ∀ k st,
      (∀ j, j < k → (relax_round adj depth n (round_iter adj depth n j st)).2 ≠ 0) →
      bf_loop_rounds adj depth n k st = k := by
  intro k
  induction k with
  | zero => intro st _; rfl
  | succ k ih =>
    intro st hno
    have h0 : (relax_round adj depth n st).2 ≠ 0 := hno 0 (by omega)
    have hrec : bf_loop_rounds adj depth n k ((relax_round adj depth n st).1, 1) = k := by
      apply ih
      intro j hj
      rw [round_iter_shift]
      exact hno (j + 1) (by omega)
    simp only [bf_loop_rounds, h0, if_false, hrec]
    omega

theorem bf_loop_rounds_first_zero (adj : ℕ → List (ℕ × ℕ)) (depth n : ℕ) :
    ∀ j k st, j < k →
      (∀ j2, j2 < j → (relax_round adj depth n (round_iter adj depth n j2 st)).2 ≠ 0) →
      (relax_round adj depth n (round_iter adj depth n j st)).2 = 0 →
      bf_loop_rounds adj depth n k st = j + 1 := by
  intro j
  induction j with
  | zero =>
    intro k st hk _ hz
    obtain ⟨k', rfl⟩ : ∃ k', k = k' + 1 := ⟨k - 1, by omega⟩
    simp only [round_iter] at hz
    simp [bf_loop_rounds, hz]
  | succ j ih =>
    intro k st hk hpre hz
    obtain ⟨k', rfl⟩ : ∃ k', k = k' + 1 := ⟨k - 1, by omega⟩
    have h0 : (relax_round adj depth n st).2 ≠ 0 := hpre 0 (by omega)
    have hrec : bf_loop_rounds adj depth n k'
        ((relax_round adj depth n st).1, 1) = j + 1 := by
      apply ih k' ((relax_round adj depth n st).1, 1) (by omega)
      · intro j2 hj2
        rw [round_iter_shift]
        exact hpre (j2 + 1) (by omega)
      · rw [round_iter_shift]
        exact hz
    simp only [bf_loop_rounds, h0, if_false, hrec]
    omega

/-- A min-update that reports no change returns the trie unchanged. -/
theorem q4_mu_flag0 {key val depth : ℕ} {T : Trie4}
    (h : (q4_min_update_f key val depth T).2 = 0) :
    (q4_min_update_f key val depth T).1 = T := by
  induction T generalizing key depth with
  | QE =>
    rw [show q4_min_update_f key val depth .QE = q4_mu_fresh key val depth from rfl,
      q4_mu_fresh_eq] at h ⊢
    simp at h
  | QL old =>
    by_cases hlt : val < old
    · simp [q4_min_update_f, hlt] at h
    · simp [q4_min_update_f, hlt]
  | Q c0 c1 c2 c3 ih0 ih1 ih2 ih3 =>
    rcases mod4_cases key with hk | hk | hk | hk <;>
      simp only [q4_min_update_f, hk, if_true, if_false] at h ⊢ <;>
      simp_all

theorem relax_edges_mono (adj : ℕ → List (ℕ × ℕ)) (depth u du : ℕ) :
    ∀ r i st,
      st.2 ≤ (relax_edges adj depth u du r i st).2 ∧
      ((relax_edges adj depth u du r i st).2 = st.2 →
        (relax_edges adj depth u du r i st).1 = st.1) := by
  intro r
  induction r with
  | zero => intro i st; exact ⟨le_refl _, fun _ => rfl⟩
  | succ r ih =>
    intro i st
    simp only [relax_edges]
    obtain ⟨hle, hz⟩ := ih (i + 1)
      ((q4_min_update_f (graph_target adj u i) (du + graph_weight adj u i) depth st.1).1,
        st.2 + (q4_min_update_f (graph_target adj u i)
          (du + graph_weight adj u i) depth st.1).2)
    simp only at hle hz
    refine ⟨by omega, fun hc => ?_⟩
    have hp0 : (q4_min_update_f (graph_target adj u i)
        (du + graph_weight adj u i) depth st.1).2 = 0 := by omega
    rw [hz (by omega), q4_mu_flag0 hp0]

theorem relax_node_mono (adj : ℕ → List (ℕ × ℕ)) (depth u : ℕ)
    (st : Trie4 × ℕ) :
    st.2 ≤ (relax_node adj depth u st).2 ∧
    ((relax_node adj depth u st).2 = st.2 → (relax_node adj depth u st).1 = st.1) := by
  unfold relax_node
  rw [q4_get_lin_eq]
  by_cases hdu : q4_get u depth st.1 < INF
  · have := relax_edges_mono adj depth u (q4_get u depth st.1)
      (graph_deg adj u) 0 (st.1, st.2)
    simpa [hdu] using this
  · exact ⟨by simp [hdu], fun _ => by simp [hdu]⟩

theorem node_loop_mono (adj : ℕ → List (ℕ × ℕ)) (depth : ℕ) :
    ∀ r i st,
      st.2 ≤ (node_loop adj depth r i st).2 ∧
      ((node_loop adj depth r i st).2 = st.2 →
        (node_loop adj depth r i st).1 = st.1) := by
  intro r
  induction r with
  | zero => intro i st; exact ⟨le_refl _, fun _ => rfl⟩
  | succ r ih =>
    intro i st
    simp only [node_loop]
    obtain ⟨hle1, hz1⟩ := relax_node_mono adj depth i st
    obtain ⟨hle2, hz2⟩ := ih (i + 1) (relax_node adj depth i st)
    refine ⟨by omega, fun hc => ?_⟩
    have hmid : (relax_node adj depth i st).2 = st.2 := by omega
    rw [hz2 (by omega), hz1 hmid]

/-- A relaxation round that reports no change leaves the distance trie
unchanged. -/
theorem relax_round_flag0 (adj : ℕ → List (ℕ × ℕ)) (depth n : ℕ)
    (st : Trie4 × ℕ) (h : (relax_round adj depth n st).2 = 0) :
    (relax_round adj depth n st).1 = st.1 := by
  unfold relax_round at h ⊢
  exact (node_loop_mono adj depth n 0 (st.1, 0)).2 h

/-- Translation of `@repeat` from the generated program of
`hvm4_shortest_path` (`lib/libhvm4_graph.c` line 625,
`@repeat = λ&f. λ&x. λ{0: x; λn. @repeat(f, f(x), n - 1)}`): apply the
round function exactly `r` times — this variant of the generated
Bellman-Ford driver has no changed flag and no early exit. -/
def hvm4_repeat {α : Type} (f : α → α) (x : α) : ℕ → α
  | 0 => x
  | r + 1 => hvm4_repeat f (f x) r

theorem hvm4_repeat_eq_iterate {α : Type} (f : α → α) :
    ∀ r x, hvm4_repeat f x r = f^[r] x := by
  intro r
  induction r with
  | zero => intro x; rfl
  | succ r ih =>
    intro x
    rw [show hvm4_repeat f x (r + 1) = hvm4_repeat f (f x) r from rfl, ih,
      Function.iterate_succ_apply]

/-! ## Claim C4: exactly n-1 rounds unless a round reports no change -/

/-- C4: for `n ≥ 2` the generated Bellman-Ford program executes
`bf_loop` with fuel `n - 1`; it runs exactly `n - 1` relaxation rounds
when no round among them reports "no change"; if the first unchanged round
is round `j` (0-based, within the fuel), it stops right after it, having
run `j + 1 ≤ n - 1` rounds; and a round that reports no change leaves the
distance trie unchanged, after which any number of further rounds is a
no-op returning the same distance state (with a cleared flag). -/
theorem bf_round_count (adj : ℕ → List (ℕ × ℕ)) (n source : ℕ) (hn : 2 ≤ n) :
    (bf_program_rounds adj n source ≤ n - 1) ∧
      ((∀ j, j < n - 1 →
          (relax_round adj (ceil_log4 n) n (round_iter adj (ceil_log4 n) n j
            (init_dist (ceil_log4 n) source, 1))).2 ≠ 0) →
        bf_program_rounds adj n source = n - 1) ∧
      (∀ j, j < n - 1 →
        (∀ j2, j2 < j →
          (relax_round adj (ceil_log4 n) n (round_iter adj (ceil_log4 n) n j2
            (init_dist (ceil_log4 n) source, 1))).2 ≠ 0) →
        (relax_round adj (ceil_log4 n) n (round_iter adj (ceil_log4 n) n j
          (init_dist (ceil_log4 n) source, 1))).2 = 0 →
        bf_program_rounds adj n source = j + 1) ∧
      (∀ d c, (relax_round adj (ceil_log4 n) n (d, c)).2 = 0 →
        (relax_round adj (ceil_log4 n) n (d, c)).1 = d ∧
        (∀ k c2, bf_loop adj (ceil_log4 n) n (k + 1) (d, c2) = (d, 0))) ∧
      (∀ (f : Trie4 → Trie4) (x : Trie4), hvm4_repeat f x (n - 1) = f^[n - 1] x) := by
  have hfuel : (if n > 1 then n - 1 else 1) = n - 1 := by
    have : n > 1 := by omega
    simp [this]
  refine ⟨?_, ?_, ?_, ?_, ?_⟩
  · unfold bf_program_rounds
    rw [hfuel]
    exact bf_loop_rounds_le adj (ceil_log4 n) n (n - 1) _
  · intro hno
    unfold bf_program_rounds
    rw [hfuel]
    exact bf_loop_rounds_full adj (ceil_log4 n) n (n - 1) _ hno
  · intro j hj hpre hz
    unfold bf_program_rounds
    rw [hfuel]
    exact bf_loop_rounds_first_zero adj (ceil_log4 n) n j (n - 1) _ hj hpre hz
  · intro d c hz
    have hd := relax_round_flag0 adj (ceil_log4 n) n (d, c) hz
    refine ⟨hd, fun k c2 => ?_⟩
    have hsame : relax_round adj (ceil_log4 n) n (d, c2) =
        relax_round adj (ceil_log4 n) n (d, c) := rfl
    simp only [bf_loop, hsame, hz, if_true]
    rw [hd]
  · intro f x
    exact hvm4_repeat_eq_iterate f (n - 1) x

theorem bf_round_count_witness :
    bf_program_rounds (fun u => if u = 0 then [(1, 5)] else []) 2 0 = 2 - 1 := by
  have h := (bf_round_count (fun u => if u = 0 then [(1, 5)] else []) 2 0
    (by omega)).2.1
  apply h
  intro j hj
  interval_cases j
  decide

/-! ## Claim C1: shortest-path agreement

Setting of `bench/dag_dp.c` / `bench/hybrid_bf.c`: graphs whose edges all
satisfy `src < dst` with the connectivity chain `i -> i+1` (weights 1..10)
that `gen_dag` always inserts, random extra weights 1..20, node counts up
to 1000; source 0, sink `n - 1`.  We prove that the DAG-DP generated
program, the hybrid Bellman-Ford generated program and the C reference
`dag_dp_reference` all yield the same source-to-sink distance, for every
such graph.  The development proceeds through a forward
(from-source) and a backward (to-sink) Bellman recurrence, both shown to
compute minima over weighted walks. -/

/-! ### Minimum folds -/

theorem foldl_min_le_init : ∀ (l : List ℕ) (a : ℕ), l.foldl min a ≤ a := by
  intro l
  induction l with
  | nil => intro a; simp
  | cons x xs ih =>
    intro a
    calc (x :: xs).foldl min a = xs.foldl min (min a x) := rfl
    _ ≤ min a x := ih (min a x)
    _ ≤ a := min_le_left a x

theorem foldl_min_le_mem : ∀ (l : List ℕ) (a x : ℕ), x ∈ l → l.foldl min a ≤ x := by
  intro l
  induction l with
  | nil => intro a x hx; simp at hx
  | cons y ys ih =>
    intro a x hx
    rcases List.mem_cons.mp hx with rfl | hx
    · calc (x :: ys).foldl min a = ys.foldl min (min a x) := rfl
      _ ≤ min a x := foldl_min_le_init ys (min a x)
      _ ≤ x := min_le_right a x
    · exact ih (min a y) x hx

theorem foldl_min_cases : ∀ (l : List ℕ) (a : ℕ),
    l.foldl min a = a ∨ l.foldl min a ∈ l := by
  intro l
  induction l with
  | nil => intro a; exact Or.inl rfl
  | cons y ys ih =>
    intro a
    rcases ih (min a y) with h | h
    · rcases Nat.le_total a y with hay | hya
      · left
        calc (y :: ys).foldl min a = ys.foldl min (min a y) := rfl
        _ = min a y := h
        _ = a := min_eq_left hay
      · right
        have hval : (y :: ys).foldl min a = y := by
          show ys.foldl min (min a y) = y
          rw [h, min_eq_right hya]
        rw [hval]
        exact List.mem_cons_self y ys
    · exact Or.inr (List.mem_cons_of_mem y h)

/-- Translation of the nested `@min` chain the DAG generator emits for a
node's out-edges (`bench/dag_dp.c` lines 171-189):
`@min(x1, @min(x2, ... xk))`, with `@min = λ&a. λ&b. λ{0: b; λn. a}(a < b)`
the binary minimum; the zero-degree case emits `@INF`, folded in here as
the empty chain. -/
def min_chain : List ℕ → ℕ
  | [] => INF
  | [x] => x
  | x :: y :: rest => min x (min_chain (y :: rest))

theorem min_chain_foldl : ∀ (l : List ℕ) (a : ℕ), l ≠ [] →
    l.foldl min a = min a (min_chain l) := by
  intro l
  induction l with
  | nil => intro a h; exact absurd rfl h
  | cons x xs ih =>
    intro a _
    cases xs with
    | nil => simp [min_chain]
    | cons y ys =>
      calc (x :: y :: ys).foldl min a = (y :: ys).foldl min (min a x) := rfl
      _ = min (min a x) (min_chain (y :: ys)) := ih (min a x) (by simp)
      _ = min a (min_chain (x :: y :: ys)) := by
          rw [min_assoc]
          rfl

/-! ### Weighted walks -/

/-- Weighted walks of the adjacency structure: `IsPathW adj u v c` holds
when there is a walk from `u` to `v` of total weight `c` along the listed
edges (proof-internal notion). -/
inductive IsPathW (adj : ℕ → List (ℕ × ℕ)) : ℕ → ℕ → ℕ → Prop
  | refl (u : ℕ) : IsPathW adj u u 0
  | step {u t c : ℕ} (tw : ℕ × ℕ) (hmem : tw ∈ adj u)
      (hrest : IsPathW adj tw.1 t c) : IsPathW adj u t (tw.2 + c)

theorem IsPathW.trans {adj : ℕ → List (ℕ × ℕ)} {a b d c1 c2 : ℕ}
    (h1 : IsPathW adj a b c1) (h2 : IsPathW adj b d c2) :
    IsPathW adj a d (c1 + c2) := by
  induction h1 with
  | refl u => simpa using h2
  | step tw hmem hrest ih =>
    have := IsPathW.step tw hmem (ih h2)
    rwa [← Nat.add_assoc] at this

theorem IsPathW.snoc {adj : ℕ → List (ℕ × ℕ)} {a u c : ℕ} (tw : ℕ × ℕ)
    (h : IsPathW adj a u c) (hmem : tw ∈ adj u) :
    IsPathW adj a tw.1 (c + tw.2) := by
  have hstep : IsPathW adj u tw.1 (tw.2 + 0) :=
    IsPathW.step tw hmem (IsPathW.refl tw.1)
  simpa using h.trans (by simpa using hstep)

section C1

variable (adj : ℕ → List (ℕ × ℕ)) (n : ℕ)

/-- Forward-edge discipline of the benchmark graphs: every edge goes to a
strictly larger in-range node with weight between 1 and 20. -/
def EdgeOk : Prop :=
  ∀ u, u < n → ∀ tw ∈ adj u, u < tw.1 ∧ tw.1 < n ∧ 1 ≤ tw.2 ∧ tw.2 ≤ 20

/-- Connectivity chain of `gen_dag` / `gen_graph`: an edge `i → i+1` of
weight at most 10 for every consecutive pair. -/
def ChainOk : Prop :=
  ∀ i, i + 1 < n → ∃ tw ∈ adj i, tw.1 = i + 1 ∧ tw.2 ≤ 10

variable {adj n}

theorem path_mono (he : EdgeOk adj n) {a b c : ℕ} (h : IsPathW adj a b c)
    (ha : a < n) : a ≤ b ∧ b < n := by
  induction h with
  | refl u => exact ⟨le_refl u, ha⟩
  | step tw hmem hrest ih =>
    rename_i u t c
    obtain ⟨h1, h2, _, _⟩ := he u ha tw hmem
    obtain ⟨h3, h4⟩ := ih h2
    exact ⟨by omega, h4⟩

theorem path_weight_bound (he : EdgeOk adj n) {a b c : ℕ}
    (h : IsPathW adj a b c) (ha : a < n) : c ≤ 20 * (b - a) := by
  induction h with
  | refl u => simp
  | step tw hmem hrest ih =>
    rename_i u t c
    obtain ⟨h1, h2, _, h4⟩ := he u ha tw hmem
    obtain ⟨h5, _⟩ := path_mono he hrest h2
    have h6 := ih h2
    omega

end C1

/-! ### Forward (from-source) Bellman recurrence (proof-internal) -/

/-- Candidates relaxing into `v` from node `x` under estimate `d`. -/
def cands_of (adj : ℕ → List (ℕ × ℕ)) (d : ℕ → ℕ) (v x : ℕ) : List ℕ :=
  (adj x).filterMap fun tw => if tw.1 = v then some (d x + tw.2) else none

def cands_concat (adj : ℕ → List (ℕ × ℕ)) (d : ℕ → ℕ) (v : ℕ) :
    List ℕ → List ℕ
  | [] => []
  | x :: xs => cands_of adj d v x ++ cands_concat adj d v xs

/-- Candidates relaxing into `v` contributed by the nodes `x < u`. -/
def in_cands (adj : ℕ → List (ℕ × ℕ)) (d : ℕ → ℕ) (u v : ℕ) : List ℕ :=
  cands_concat adj d v (List.range u)

def fwd_base (v : ℕ) : ℕ := if v = 0 then 0 else INF

/-- Fuel-indexed forward Bellman recurrence: distance-from-source
estimates where node `v` draws on the estimates of its in-neighbours
(all `< v` in a forward graph). -/
def fwdF (adj : ℕ → List (ℕ × ℕ)) : ℕ → ℕ → ℕ
  | 0, v => fwd_base v
  | f + 1, v => (in_cands adj (fwdF adj f) v v).foldl min (fwd_base v)

def fwd (adj : ℕ → List (ℕ × ℕ)) (v : ℕ) : ℕ := fwdF adj (v + 1) v

theorem cands_concat_congr (adj : ℕ → List (ℕ × ℕ)) {d d' : ℕ → ℕ} (v : ℕ)
    (l : List ℕ) (h : ∀ x ∈ l, d x = d' x) :
    cands_concat adj d v l = cands_concat adj d' v l := by
  induction l with
  | nil => rfl
  | cons x xs ih =>
    have hx : cands_of adj d v x = cands_of adj d' v x := by
      unfold cands_of
      rw [h x (by simp)]
    simp only [cands_concat, hx, ih fun y hy => h y (by simp [hy])]

theorem cands_concat_append (adj : ℕ → List (ℕ × ℕ)) (d : ℕ → ℕ) (v : ℕ)
    (l1 l2 : List ℕ) :
    cands_concat adj d v (l1 ++ l2) =
      cands_concat adj d v l1 ++ cands_concat adj d v l2 := by
  induction l1 with
  | nil => rfl
  | cons x xs ih => simp [cands_concat, ih]

theorem mem_cands_concat {adj : ℕ → List (ℕ × ℕ)} {d : ℕ → ℕ} {v c : ℕ}
    {l : List ℕ} :
    c ∈ cands_concat adj d v l ↔ ∃ x ∈ l, c ∈ cands_of adj d v x := by
  induction l with
  | nil => simp [cands_concat]
  | cons x xs ih => simp [cands_concat, ih]

theorem mem_cands_of {adj : ℕ → List (ℕ × ℕ)} {d : ℕ → ℕ} {v c x : ℕ} :
    c ∈ cands_of adj d v x ↔
      ∃ tw ∈ adj x, tw.1 = v ∧ c = d x + tw.2 := by
  unfold cands_of
  rw [List.mem_filterMap]
  constructor
  · rintro ⟨tw, hmem, heq⟩
    by_cases h : tw.1 = v
    · simp only [h, if_true, Option.some.injEq] at heq
      exact ⟨tw, hmem, h, heq.symm⟩
    · simp [h] at heq
  · rintro ⟨tw, hmem, h1, rfl⟩
    exact ⟨tw, hmem, by simp [h1]⟩

theorem fwdF_stable (adj : ℕ → List (ℕ × ℕ)) :
    ∀ v f g, v < f → v < g → fwdF adj f v = fwdF adj g v := by
  intro v
  induction v using Nat.strong_induction_on with
  | _ v ih =>
    intro f g hf hg
    obtain ⟨f', rfl⟩ : ∃ f', f = f' + 1 := ⟨f - 1, by omega⟩
    obtain ⟨g', rfl⟩ : ∃ g', g = g' + 1 := ⟨g - 1, by omega⟩
    show (in_cands adj (fwdF adj f') v v).foldl min (fwd_base v) =
      (in_cands adj (fwdF adj g') v v).foldl min (fwd_base v)
    have hc : in_cands adj (fwdF adj f') v v = in_cands adj (fwdF adj g') v v := by
      apply cands_concat_congr
      intro x hx
      have hxv : x < v := List.mem_range.mp hx
      exact ih x hxv f' g' (by omega) (by omega)
    rw [hc]

theorem fwd_rec (adj : ℕ → List (ℕ × ℕ)) (v : ℕ) :
    fwd adj v = (in_cands adj (fwd adj) v v).foldl min (fwd_base v) := by
  show (in_cands adj (fwdF adj v) v v).foldl min (fwd_base v) = _
  have hc : in_cands adj (fwdF adj v) v v = in_cands adj (fwd adj) v v := by
    apply cands_concat_congr
    intro x hx
    have hxv : x < v := List.mem_range.mp hx
    exact fwdF_stable adj x v (x + 1) hxv (by omega)
  rw [hc]

theorem fwd_zero (adj : ℕ → List (ℕ × ℕ)) : fwd adj 0 = 0 := rfl

theorem fwd_edge_le (adj : ℕ → List (ℕ × ℕ)) {u : ℕ} {tw : ℕ × ℕ}
    (hmem : tw ∈ adj u) (hlt : u < tw.1) :
    fwd adj tw.1 ≤ fwd adj u + tw.2 := by
  rw [fwd_rec]
  apply foldl_min_le_mem
  exact mem_cands_concat.mpr ⟨u, List.mem_range.mpr hlt,
    mem_cands_of.mpr ⟨tw, hmem, rfl, rfl⟩⟩

theorem fwd_chain_bound {adj : ℕ → List (ℕ × ℕ)} {n : ℕ}
    (hc : ChainOk adj n) : ∀ v, v < n → fwd adj v ≤ 10 * v := by
  intro v
  induction v with
  | zero => intro _; simp [fwd_zero]
  | succ v ih =>
    intro hv
    obtain ⟨tw, hmem, htgt, hw⟩ := hc v hv
    have h1 : fwd adj tw.1 ≤ fwd adj v + tw.2 :=
      fwd_edge_le adj hmem (by omega)
    have h2 := ih (by omega)
    rw [htgt] at h1
    omega

theorem fwd_lt_INF {adj : ℕ → List (ℕ × ℕ)} {n : ℕ}
    (hc : ChainOk adj n) (hcap : n ≤ 1000) {v : ℕ} (hv : v < n) :
    fwd adj v < INF := by
  have := fwd_chain_bound hc v hv
  unfold INF
  omega

theorem fwd_mem {adj : ℕ → List (ℕ × ℕ)} {n : ℕ} (hc : ChainOk adj n)
    (hcap : n ≤ 1000) :
    ∀ v, v < n → IsPathW adj 0 v (fwd adj v) := by
  intro v
  induction v using Nat.strong_induction_on with
  | _ v ih =>
    intro hv
    rcases Nat.eq_zero_or_pos v with rfl | hvpos
    · rw [fwd_zero]
      exact IsPathW.refl 0
    · have hvne : v ≠ 0 := by omega
      have hbase : fwd_base v = INF := by
        unfold fwd_base
        simp [hvne]
      have hlt : fwd adj v < INF := fwd_lt_INF hc hcap hv
      rcases foldl_min_cases (in_cands adj (fwd adj) v v) (fwd_base v) with h | h
      · rw [fwd_rec] at hlt
        rw [h, hbase] at hlt
        omega
      · rw [fwd_rec] at hlt ⊢
        obtain ⟨x, hx, hcand⟩ := mem_cands_concat.mp h
        obtain ⟨tw, hmem, htgt, hval⟩ := mem_cands_of.mp hcand
        have hxv : x < v := List.mem_range.mp hx
        have hpath : IsPathW adj 0 x (fwd adj x) := ih x hxv (by omega)
        have := IsPathW.snoc tw hpath hmem
        rw [htgt] at this
        rw [hval]
        exact this

/-! ### Backward (to-sink) Bellman recurrence (proof-internal) -/

def out_cands (adj : ℕ → List (ℕ × ℕ)) (d : ℕ → ℕ) (u : ℕ) : List ℕ :=
  (adj u).map fun tw => tw.2 + d tw.1

def bwdF (adj : ℕ → List (ℕ × ℕ)) (dest : ℕ) : ℕ → ℕ → ℕ
  | 0, u => if u = dest then 0 else INF
  | f + 1, u =>
    if u = dest then 0
    else (out_cands adj (bwdF adj dest f) u).foldl min INF

def bwd (adj : ℕ → List (ℕ × ℕ)) (n u : ℕ) : ℕ := bwdF adj (n - 1) (n - u) u

theorem out_cands_congr (adj : ℕ → List (ℕ × ℕ)) {d d' : ℕ → ℕ} (u : ℕ)
    (h : ∀ tw ∈ adj u, d tw.1 = d' tw.1) :
    out_cands adj d u = out_cands adj d' u := by
  unfold out_cands
  apply List.map_congr_left
  intro tw htw
  rw [h tw htw]

theorem bwdF_stable {adj : ℕ → List (ℕ × ℕ)} {n : ℕ} (he : EdgeOk adj n) :
    ∀ f g u, u < n → n ≤ f + u → n ≤ g + u →
      bwdF adj (n - 1) f u = bwdF adj (n - 1) g u := by
  intro f
  induction f with
  | zero => intro g u hu hf _; omega
  | succ f ih =>
    intro g u hu hf hg
    obtain ⟨g', rfl⟩ : ∃ g', g = g' + 1 := ⟨g - 1, by omega⟩
    by_cases hd : u = n - 1
    · simp [bwdF, hd]
    · show (if u = n - 1 then 0
          else (out_cands adj (bwdF adj (n - 1) f) u).foldl min INF) =
        (if u = n - 1 then 0
          else (out_cands adj (bwdF adj (n - 1) g') u).foldl min INF)
      rw [if_neg hd, if_neg hd]
      rw [out_cands_congr adj u fun tw htw => ?_]
      obtain ⟨h1, h2, _, _⟩ := he u hu tw htw
      exact ih g' tw.1 h2 (by omega) (by omega)

theorem bwd_rec {adj : ℕ → List (ℕ × ℕ)} {n : ℕ} (he : EdgeOk adj n)
    {u : ℕ} (hu : u < n) :
    bwd adj n u = if u = n - 1 then 0
      else (out_cands adj (bwd adj n) u).foldl min INF := by
  obtain ⟨r, hr⟩ : ∃ r, n - u = r + 1 := ⟨n - u - 1, by omega⟩
  show bwdF adj (n - 1) (n - u) u = _
  rw [hr]
  show (if u = n - 1 then 0
      else (out_cands adj (bwdF adj (n - 1) r) u).foldl min INF) = _
  by_cases hd : u = n - 1
  · rw [if_pos hd, if_pos hd]
  · rw [if_neg hd, if_neg hd]
    rw [out_cands_congr adj u fun tw htw => ?_]
    obtain ⟨h1, h2, _, _⟩ := he u hu tw htw
    exact bwdF_stable he r (n - tw.1) tw.1 h2 (by omega) (by omega)

theorem bwd_dest {adj : ℕ → List (ℕ × ℕ)} {n : ℕ} (hn : 1 ≤ n) :
    bwd adj n (n - 1) = 0 := by
  have h1 : n - (n - 1) = 0 + 1 := by omega
  show bwdF adj (n - 1) (n - (n - 1)) (n - 1) = 0
  rw [h1]
  show (if n - 1 = n - 1 then 0 else _) = 0
  rw [if_pos rfl]

theorem bwd_edge_le {adj : ℕ → List (ℕ × ℕ)} {n : ℕ} (he : EdgeOk adj n)
    {u : ℕ} (hu : u < n) (hd : u ≠ n - 1) {tw : ℕ × ℕ} (hmem : tw ∈ adj u) :
    bwd adj n u ≤ tw.2 + bwd adj n tw.1 := by
  rw [bwd_rec he hu, if_neg hd]
  apply foldl_min_le_mem
  exact List.mem_map.mpr ⟨tw, hmem, rfl⟩

theorem bwd_le_path {adj : ℕ → List (ℕ × ℕ)} {n : ℕ} (he : EdgeOk adj n) :
    ∀ {u b c : ℕ}, IsPathW adj u b c → b = n - 1 → u < n → bwd adj n u ≤ c := by
  intro u b c h
  induction h with
  | refl v =>
    intro hb hv
    subst hb
    rw [bwd_dest (by omega)]
  | step tw hmem hrest ih =>
    rename_i u t c
    intro hb hu
    by_cases hd : u = n - 1
    · subst hd
      rw [bwd_dest (by omega)]
      omega
    · obtain ⟨_, h2, _, _⟩ := he u hu tw hmem
      have h1 := bwd_edge_le he hu hd hmem
      have h3 := ih hb h2
      omega

theorem bwd_chain_bound {adj : ℕ → List (ℕ × ℕ)} {n : ℕ} (he : EdgeOk adj n)
    (hc : ChainOk adj n) :
    ∀ k u, u < n → n - 1 - u = k → bwd adj n u ≤ 10 * k := by
  intro k
  induction k with
  | zero =>
    intro u hu hk
    have hd : u = n - 1 := by omega
    subst hd
    rw [bwd_dest (by omega)]
  | succ k ih =>
    intro u hu hk
    have hd : u ≠ n - 1 := by omega
    obtain ⟨tw, hmem, htgt, hw⟩ := hc u (by omega)
    have h1 := bwd_edge_le he hu hd hmem
    have h2 : bwd adj n tw.1 ≤ 10 * k := by
      apply ih tw.1 (by omega) (by omega)
    omega

theorem bwd_mem {adj : ℕ → List (ℕ × ℕ)} {n : ℕ} (he : EdgeOk adj n)
    (hc : ChainOk adj n) (hcap : n ≤ 1000) :
    ∀ k u, u < n → n - 1 - u = k → IsPathW adj u (n - 1) (bwd adj n u) := by
  intro k
  induction k using Nat.strong_induction_on with
  | _ k ih =>
    intro u hu hk
    by_cases hd : u = n - 1
    · subst hd
      rw [bwd_dest (by omega)]
      exact IsPathW.refl (n - 1)
    · have hlt : bwd adj n u < INF := by
        have := bwd_chain_bound he hc k u hu hk
        unfold INF
        omega
      rw [bwd_rec he hu, if_neg hd] at hlt ⊢
      rcases foldl_min_cases (out_cands adj (bwd adj n) u) INF with h | h
      · rw [h] at hlt
        omega
      · obtain ⟨tw, hmem, hval⟩ := List.mem_map.mp h
        obtain ⟨h1, h2, _, _⟩ := he u hu tw hmem
        have hpath : IsPathW adj tw.1 (n - 1) (bwd adj n tw.1) := by
          apply ih (n - 1 - tw.1) (by omega) tw.1 h2 rfl
        rw [← hval]
        exact IsPathW.step tw hmem hpath

/-- The forward distance to the sink equals the backward distance from the
source: both are the least weight of a walk from node 0 to node `n-1`. -/
theorem fwd_eq_bwd {adj : ℕ → List (ℕ × ℕ)} {n : ℕ} (he : EdgeOk adj n)
    (hc : ChainOk adj n) (hcap : n ≤ 1000) (hn : 2 ≤ n) :
    fwd adj (n - 1) = bwd adj n 0 := by
  have hfwd_le_path : ∀ a b c, IsPathW adj a b c → a < n →
      fwd adj b ≤ fwd adj a + c := by
    intro a b c h
    induction h with
    | refl u => intro _; omega
    | step tw hmem hrest ih =>
      rename_i u t c
      intro hun
      obtain ⟨h1, h2, _, _⟩ := he u hun tw hmem
      have h3 := fwd_edge_le adj hmem h1
      have h4 := ih h2
      omega
  apply Nat.le_antisymm
  · have hp := bwd_mem he hc hcap (n - 1 - 0) 0 (by omega) rfl
    have := hfwd_le_path 0 (n - 1) (bwd adj n 0) hp (by omega)
    rw [fwd_zero] at this
    omega
  · have hp := fwd_mem hc hcap (n - 1) (by omega)
    exact bwd_le_path he hp rfl (by omega)

theorem min_chain_le_mem : ∀ (l : List ℕ) {x : ℕ}, x ∈ l → min_chain l ≤ x := by
  intro l
  induction l with
  | nil => intro x hx; simp at hx
  | cons a t ih =>
    intro x hx
    cases t with
    | nil =>
      rcases List.mem_singleton.mp hx with rfl
      exact Nat.le_refl _
    | cons b t2 =>
      rcases List.mem_cons.mp hx with rfl | hx2
      · exact min_le_left _ _
      · exact le_trans (min_le_right _ _) (ih hx2)

theorem bwd_le_INF {adj : ℕ → List (ℕ × ℕ)} {n : ℕ} (he : EdgeOk adj n)
    {u : ℕ} (hu : u < n) : bwd adj n u ≤ INF := by
  rw [bwd_rec he hu]
  by_cases hd : u = n - 1
  · simp [hd]
  · rw [if_neg hd]
    exact foldl_min_le_init _ _

/-! ### The DAG-DP generated program and C reference (`bench/dag_dp.c`) -/

/-- Value of the binding emitted for one node: the `@min` chain over
`weight + binding-of-target` for the node's out-edges; the zero-degree
emission `@INF` is the empty chain. -/
def dag_node_val (adj : ℕ → List (ℕ × ℕ)) (dp : ℕ → ℕ) (u : ℕ) : ℕ :=
  min_chain ((adj u).map fun tw => tw.2 + dp tw.1)

/-- Semantics of the let-binding chain emitted by `gen_hvm4_source` in
`bench/dag_dp.c` lines 143-219 for the benchmark's destination `n - 1`:
the destination is bound to 0 first, then nodes `n-2 .. 0` other than the
source are bound in decreasing order, and the source's identical expression
is the program's result.  Every reference goes to a strictly larger node
(all edges satisfy `u < v`), so the chain is a well-founded recursion,
modelled with fuel (`n - u` suffices given forward edges). -/
def dag_dp_value (adj : ℕ → List (ℕ × ℕ)) (dest : ℕ) : ℕ → ℕ → ℕ
  | 0, u => if u = dest then 0 else INF
  | f + 1, u =>
    if u = dest then 0 else dag_node_val adj (dag_dp_value adj dest f) u

/-- Source-to-sink value computed by the DAG-DP generated program. -/
def dag_dp_program (adj : ℕ → List (ℕ × ℕ)) (n src : ℕ) : ℕ :=
  dag_dp_value adj (n - 1) n src

theorem dag_dp_value_eq_bwd {adj : ℕ → List (ℕ × ℕ)} {n : ℕ}
    (he : EdgeOk adj n) (hc : ChainOk adj n) (hcap : n ≤ 1000) :
    ∀ f u, u < n → n ≤ f + u → dag_dp_value adj (n - 1) f u = bwd adj n u := by
  intro f
  induction f with
  | zero => intro u hu hf; omega
  | succ f ih =>
    intro u hu hf
    by_cases hd : u = n - 1
    · show (if u = n - 1 then 0 else _) = bwd adj n u
      rw [if_pos hd, hd, bwd_dest (by omega)]
    · show (if u = n - 1 then 0
          else dag_node_val adj (dag_dp_value adj (n - 1) f) u) = bwd adj n u
      rw [if_neg hd]
      unfold dag_node_val
      have hmap : (adj u).map (fun tw => tw.2 + dag_dp_value adj (n - 1) f tw.1) =
          out_cands adj (bwd adj n) u := by
        apply List.map_congr_left
        intro tw htw
        obtain ⟨h1, h2, _, _⟩ := he u hu tw htw
        rw [ih tw.1 h2 (by omega)]
      rw [hmap, bwd_rec he hu, if_neg hd]
      obtain ⟨tw, hmem, htgt, hw⟩ := hc u (by omega)
      have hne : out_cands adj (bwd adj n) u ≠ [] := by
        unfold out_cands
        intro hnil
        rw [List.map_eq_nil_iff] at hnil
        rw [hnil] at hmem
        exact List.not_mem_nil tw hmem
      rw [min_chain_foldl _ INF hne]
      have hmemc : tw.2 + bwd adj n tw.1 ∈ out_cands adj (bwd adj n) u :=
        List.mem_map.mpr ⟨tw, hmem, rfl⟩
      have hble : bwd adj n tw.1 ≤ 10 * (n - 1 - tw.1) :=
        bwd_chain_bound he hc (n - 1 - tw.1) tw.1 (by omega) rfl
      have hlem := min_chain_le_mem _ hmemc
      rw [min_eq_right]
      unfold INF
      omega

/-- Translation of `dag_dp_reference` (`bench/dag_dp.c` lines 110-128),
node step: starting from `dist[u]` (initialised to `INF`), each out-edge
proposes `(wt + dist[target]) mod 2^32` (`uint32_t` arithmetic) and the
smaller value is kept. -/
def dag_ref_node (adj : ℕ → List (ℕ × ℕ)) (dist : ℕ → ℕ) (u : ℕ) : ℕ :=
  (adj u).foldl (fun acc tw =>
    let nd := (tw.2 + dist tw.1) % 2 ^ 32
    if nd < acc then nd else acc) (dist u)

/-- Translation of the `dag_dp_reference` main loop: nodes `n-1 .. 0` in
decreasing order, skipping the destination. -/
def dag_ref_loop (adj : ℕ → List (ℕ × ℕ)) (dest : ℕ) : ℕ → (ℕ → ℕ) → (ℕ → ℕ)
  | 0, dist => dist
  | u + 1, dist =>
    dag_ref_loop adj dest u
      (if u = dest then dist
        else Function.update dist u (dag_ref_node adj dist u))

/-- Translation of `dag_dp_reference`: `dist` initialised to `INF`
everywhere except `dist[dest] = 0`, the reverse loop, and the result read
at the source. -/
def dag_dp_reference (adj : ℕ → List (ℕ × ℕ)) (n src dest : ℕ) : ℕ :=
  dag_ref_loop adj dest n (fun i => if i = dest then 0 else INF) src

theorem foldl_refnode_eq_min (f : ℕ × ℕ → ℕ) :
    ∀ (l : List (ℕ × ℕ)) (acc : ℕ), (∀ tw ∈ l, f tw < 2 ^ 32) →
      l.foldl (fun acc tw => let nd := f tw % 2 ^ 32;
        if nd < acc then nd else acc) acc =
      (l.map f).foldl min acc := by
  intro l
  induction l with
  | nil => intro acc _; rfl
  | cons tw rest ih =>
    intro acc hb
    have hmod : f tw % 2 ^ 32 = f tw := Nat.mod_eq_of_lt (hb tw (by simp))
    have hstep : (let nd := f tw % 2 ^ 32; if nd < acc then nd else acc) =
        min acc (f tw) := by
      simp only [hmod]
      rcases Nat.lt_or_ge (f tw) acc with h | h
      · rw [if_pos h, min_eq_right (by omega)]
      · rw [if_neg (by omega), min_eq_left h]
    calc (tw :: rest).foldl (fun acc tw => let nd := f tw % 2 ^ 32;
          if nd < acc then nd else acc) acc =
        rest.foldl (fun acc tw => let nd := f tw % 2 ^ 32;
          if nd < acc then nd else acc) (min acc (f tw)) := by
          show rest.foldl _ (let nd := f tw % 2 ^ 32;
            if nd < acc then nd else acc) = _
          rw [hstep]
    _ = (rest.map f).foldl min (min acc (f tw)) := ih (min acc (f tw))
        fun tw2 h2 => hb tw2 (by simp [h2])
    _ = ((tw :: rest).map f).foldl min acc := rfl

theorem dag_ref_loop_inv {adj : ℕ → List (ℕ × ℕ)} {n : ℕ}
    (he : EdgeOk adj n) (hc : ChainOk adj n) (hcap : n ≤ 1000) :
    ∀ u dist, u ≤ n →
      (∀ v, u ≤ v → v < n → dist v = bwd adj n v) →
      (∀ v, v < u → dist v = if v = n - 1 then 0 else INF) →
      ∀ v, v < n → dag_ref_loop adj (n - 1) u dist v = bwd adj n v := by
  intro u
  induction u with
  | zero =>
    intro dist _ h1 _ v hv
    exact h1 v (by omega) hv
  | succ u ih =>
    intro dist hu h1 h2 v hv
    show dag_ref_loop adj (n - 1) u
      (if u = n - 1 then dist
        else Function.update dist u (dag_ref_node adj dist u)) v = bwd adj n v
    by_cases hd : u = n - 1
    · rw [if_pos hd]
      apply ih dist (by omega) ?_ ?_ v hv
      · intro w hw1 hw2
        rcases Nat.eq_or_lt_of_le hw1 with heq | hlt
        · have hw : w = n - 1 := by omega
          rw [h2 w (by omega), if_pos hw, hw, bwd_dest (by omega)]
        · exact h1 w (by omega) hw2
      · intro w hw
        exact h2 w (by omega)
    · rw [if_neg hd]
      have hun : u < n := by omega
      have hnode : dag_ref_node adj dist u = bwd adj n u := by
        unfold dag_ref_node
        have hb : ∀ tw ∈ adj u, tw.2 + dist tw.1 < 2 ^ 32 := by
          intro tw htw
          obtain ⟨hl, h2', _, h4⟩ := he u hun tw htw
          rw [h1 tw.1 (by omega) h2']
          have hle := bwd_le_INF he h2'
          unfold INF at hle
          omega
        rw [foldl_refnode_eq_min (fun tw => tw.2 + dist tw.1) (adj u) (dist u) hb]
        have hmap : (adj u).map (fun tw => tw.2 + dist tw.1) =
            out_cands adj (bwd adj n) u := by
          apply List.map_congr_left
          intro tw htw
          obtain ⟨hl, h2', _, _⟩ := he u hun tw htw
          rw [h1 tw.1 (by omega) h2']
        rw [hmap, h2 u (by omega), if_neg hd, bwd_rec he hun, if_neg hd]
      apply ih (Function.update dist u (dag_ref_node adj dist u)) (by omega)
        ?_ ?_ v hv
      · intro w hw1 hw2
        rcases Nat.eq_or_lt_of_le hw1 with rfl | hlt
        · rw [Function.update_same, hnode]
        · rw [Function.update_noteq (by omega)]
          exact h1 w (by omega) hw2
      · intro w hw
        rw [Function.update_noteq (by omega)]
        exact h2 w (by omega)

/-- The C reference computes the backward distance at the source. -/
theorem dag_dp_reference_eq_bwd {adj : ℕ → List (ℕ × ℕ)} {n : ℕ}
    (he : EdgeOk adj n) (hc : ChainOk adj n) (hcap : n ≤ 1000) (hn : 2 ≤ n) :
    dag_dp_reference adj n 0 (n - 1) = bwd adj n 0 := by
  apply dag_ref_loop_inv he hc hcap n _ (le_refl n) ?_ ?_ 0 (by omega)
  · intro v hv1 hv2
    omega
  · intro v _
    rfl

/-! ### Function-level mirror of the hybrid BF relaxation (proof-internal) -/

def relax_edges_fun (adj : ℕ → List (ℕ × ℕ)) (u du : ℕ) :
    ℕ → ℕ → (ℕ → ℕ) → (ℕ → ℕ)
  | 0, _, d => d
  | r + 1, i, d =>
    relax_edges_fun adj u du r (i + 1)
      (fun x => if x = graph_target adj u i
        then min (d (graph_target adj u i)) (du + graph_weight adj u i)
        else d x)

def relax_node_fun (adj : ℕ → List (ℕ × ℕ)) (u : ℕ) (d : ℕ → ℕ) : ℕ → ℕ :=
  if d u < INF then relax_edges_fun adj u (d u) (graph_deg adj u) 0 d else d

def node_loop_fun (adj : ℕ → List (ℕ × ℕ)) : ℕ → ℕ → (ℕ → ℕ) → (ℕ → ℕ)
  | 0, _, d => d
  | r + 1, i, d => node_loop_fun adj r (i + 1) (relax_node_fun adj i d)

def round_fun (adj : ℕ → List (ℕ × ℕ)) (n : ℕ) (d : ℕ → ℕ) : ℕ → ℕ :=
  node_loop_fun adj n 0 d

/-- List-level version of the per-node edge relaxation. -/
def edge_relax_fold (du : ℕ) (es : List (ℕ × ℕ)) (d : ℕ → ℕ) : ℕ → ℕ :=
  es.foldl
    (fun dd tw => fun x => if x = tw.1 then min (dd tw.1) (du + tw.2) else dd x) d

theorem relax_edges_fun_eq_fold (adj : ℕ → List (ℕ × ℕ)) (u du : ℕ) :
    ∀ r i d, i + r = (adj u).length →
      relax_edges_fun adj u du r i d = edge_relax_fold du ((adj u).drop i) d := by
  intro r
  induction r with
  | zero =>
    intro i d hi
    rw [show i = (adj u).length by omega, List.drop_length]
    rfl
  | succ r ih =>
    intro i d hi
    have hlt : i < (adj u).length := by omega
    have hdrop : (adj u).drop i = (adj u)[i] :: (adj u).drop (i + 1) :=
      List.drop_eq_getElem_cons hlt
    have htgt : graph_target adj u i = ((adj u)[i]).1 := by
      unfold graph_target
      rw [List.getD_eq_getElem (adj u) (0, 0) hlt]
    have hwt : graph_weight adj u i = ((adj u)[i]).2 := by
      unfold graph_weight
      rw [List.getD_eq_getElem (adj u) (0, 0) hlt]
    show relax_edges_fun adj u du r (i + 1) _ = _
    rw [ih (i + 1) _ (by omega), hdrop]
    show edge_relax_fold du ((adj u).drop (i + 1)) _ =
      edge_relax_fold du ((adj u)[i] :: (adj u).drop (i + 1)) d
    unfold edge_relax_fold
    rw [List.foldl_cons]
    rw [htgt, hwt]

theorem edge_relax_fold_spec (du : ℕ) :
    ∀ (es : List (ℕ × ℕ)) (d : ℕ → ℕ) (v : ℕ),
      edge_relax_fold du es d v =
        (es.filterMap fun tw =>
          if tw.1 = v then some (du + tw.2) else none).foldl min (d v) := by
  intro es
  induction es with
  | nil => intro d v; rfl
  | cons tw rest ih =>
    intro d v
    have hstep : edge_relax_fold du (tw :: rest) d =
        edge_relax_fold du rest
          (fun x => if x = tw.1 then min (d tw.1) (du + tw.2) else d x) := rfl
    rw [hstep, ih]
    by_cases hv : tw.1 = v
    · subst hv
      simp [List.filterMap_cons, List.foldl_cons]
    · have hv2 : ¬ (v = tw.1) := fun h => hv h.symm
      simp only [if_neg hv2, List.filterMap_cons, if_neg hv]

/-- Distance estimates after the nodes `x < u` have been relaxed (with
their final forward values, which is what the in-order sweep achieves on a
forward graph). -/
def part_dist (adj : ℕ → List (ℕ × ℕ)) (u v : ℕ) : ℕ :=
  (in_cands adj (fwd adj) u v).foldl min (fwd_base v)

theorem part_dist_zero (adj : ℕ → List (ℕ × ℕ)) (v : ℕ) :
    part_dist adj 0 v = fwd_base v := rfl

theorem part_dist_self (adj : ℕ → List (ℕ × ℕ)) (v : ℕ) :
    part_dist adj v v = fwd adj v := (fwd_rec adj v).symm

theorem part_dist_succ (adj : ℕ → List (ℕ × ℕ)) (u v : ℕ) :
    part_dist adj (u + 1) v =
      (cands_of adj (fwd adj) v u).foldl min (part_dist adj u v) := by
  unfold part_dist in_cands
  rw [List.range_succ, cands_concat_append]
  have h2 : cands_concat adj (fwd adj) v [u] = cands_of adj (fwd adj) v u := by
    simp [cands_concat]
  rw [h2, List.foldl_append]

theorem part_dist_high {adj : ℕ → List (ℕ × ℕ)} {n : ℕ} (he : EdgeOk adj n) :
    ∀ k v, v + k ≤ n → part_dist adj (v + k) v = fwd adj v := by
  intro k
  induction k with
  | zero => intro v _; exact part_dist_self adj v
  | succ k ih =>
    intro v hk
    have hx : v + k < n := by omega
    have hempty : cands_of adj (fwd adj) v (v + k) = [] := by
      unfold cands_of
      rw [List.filterMap_eq_nil_iff]
      intro tw htw
      obtain ⟨h1, _, _, _⟩ := he (v + k) hx tw htw
      rw [if_neg (by omega)]
    rw [show v + (k + 1) = (v + k) + 1 by omega, part_dist_succ, hempty,
      ih v (by omega)]
    rfl

theorem relax_node_fun_step {adj : ℕ → List (ℕ × ℕ)} {n : ℕ}
    (hc : ChainOk adj n) (hcap : n ≤ 1000) {i : ℕ} (hi : i < n) :
    relax_node_fun adj i (part_dist adj i) = part_dist adj (i + 1) := by
  funext v
  unfold relax_node_fun
  have hlt : part_dist adj i i < INF := by
    rw [part_dist_self adj i]
    exact fwd_lt_INF hc hcap hi
  rw [if_pos hlt]
  have heq := relax_edges_fun_eq_fold adj i (part_dist adj i i)
    ((adj i).length) 0 (part_dist adj i) (by omega)
  rw [show graph_deg adj i = (adj i).length from rfl, heq, List.drop_zero,
    edge_relax_fold_spec, part_dist_self adj i, part_dist_succ]
  rfl

theorem node_loop_fun_sweep {adj : ℕ → List (ℕ × ℕ)} {n : ℕ}
    (hc : ChainOk adj n) (hcap : n ≤ 1000) :
    ∀ r i, i + r ≤ n →
      node_loop_fun adj r i (part_dist adj i) = part_dist adj (i + r) := by
  intro r
  induction r with
  | zero => intro i _; rfl
  | succ r ih =>
    intro i hle
    show node_loop_fun adj r (i + 1) (relax_node_fun adj i (part_dist adj i)) = _
    rw [relax_node_fun_step hc hcap (by omega), ih (i + 1) (by omega),
      show i + 1 + r = i + (r + 1) by omega]

theorem edge_relax_fold_id (du : ℕ) :
    ∀ (es : List (ℕ × ℕ)) (d : ℕ → ℕ), (∀ tw ∈ es, d tw.1 ≤ du + tw.2) →
      edge_relax_fold du es d = d := by
  intro es
  induction es with
  | nil => intro d _; rfl
  | cons tw rest ih =>
    intro d h
    have hupd : (fun x => if x = tw.1 then min (d tw.1) (du + tw.2) else d x) = d := by
      funext x
      by_cases hx : x = tw.1
      · subst hx
        rw [if_pos rfl, min_eq_left (h tw (by simp))]
      · rw [if_neg hx]
    show edge_relax_fold du rest
      (fun x => if x = tw.1 then min (d tw.1) (du + tw.2) else d x) = d
    rw [hupd]
    exact ih d fun tw2 h2 => h tw2 (by simp [h2])

theorem relax_node_fun_id {adj : ℕ → List (ℕ × ℕ)} {u : ℕ} (d : ℕ → ℕ)
    (hrel : ∀ tw ∈ adj u, d tw.1 ≤ d u + tw.2) :
    relax_node_fun adj u d = d := by
  unfold relax_node_fun
  by_cases hlt : d u < INF
  · rw [if_pos hlt,
      show graph_deg adj u = (adj u).length from rfl,
      relax_edges_fun_eq_fold adj u (d u) ((adj u).length) 0 d (by omega),
      List.drop_zero]
    exact edge_relax_fold_id (d u) (adj u) d hrel
  · rw [if_neg hlt]

theorem node_loop_fun_id {adj : ℕ → List (ℕ × ℕ)} {n : ℕ} (d : ℕ → ℕ)
    (hrel : ∀ u, u < n → ∀ tw ∈ adj u, d tw.1 ≤ d u + tw.2) :
    ∀ r i, i + r ≤ n → node_loop_fun adj r i d = d := by
  intro r
  induction r with
  | zero => intro i _; rfl
  | succ r ih =>
    intro i hle
    show node_loop_fun adj r (i + 1) (relax_node_fun adj i d) = d
    rw [relax_node_fun_id d (hrel i (by omega)), ih (i + 1) (by omega)]

theorem round_fun_id {adj : ℕ → List (ℕ × ℕ)} {n : ℕ} (d : ℕ → ℕ)
    (hrel : ∀ u, u < n → ∀ tw ∈ adj u, d tw.1 ≤ d u + tw.2) :
    round_fun adj n d = d :=
  node_loop_fun_id d hrel n 0 (by omega)

/-! ### Trie-to-function refinement of the relaxation sweep -/

/-- The distance trie refines the estimate function `d`: the trie is
well-formed, and every in-range node is either absent with estimate
`@INF` or stores its estimate, which is then realised by some walk from
the source node 0. -/
def BFInv (adj : ℕ → List (ℕ × ℕ)) (n depth : ℕ) (T : Trie4) (d : ℕ → ℕ) :
    Prop :=
  q4_wf depth T ∧
  ∀ v, v < n → ((d v = INF ∧ q4_lookup v depth T = none) ∨
    (q4_lookup v depth T = some (d v) ∧ IsPathW adj 0 v (d v)))

theorem BFInv.get {adj : ℕ → List (ℕ × ℕ)} {n depth : ℕ} {T : Trie4}
    {d : ℕ → ℕ} (h : BFInv adj n depth T d) {v : ℕ} (hv : v < n) :
    q4_get v depth T = d v := by
  rw [q4_get_eq_lookup]
  rcases h.2 v hv with ⟨hd, hl⟩ | ⟨hl, _⟩
  · rw [hl, hd]; rfl
  · rw [hl]; rfl

theorem bfinv_mu {adj : ℕ → List (ℕ × ℕ)} {n depth : ℕ}
    (hdep : n ≤ 4 ^ depth) {T : Trie4} {d : ℕ → ℕ}
    (hinv : BFInv adj n depth T d) {v c : ℕ} (hv : v < n) (hcINF : c < INF)
    (hpath : IsPathW adj 0 v c) :
    BFInv adj n depth (q4_min_update_f v c depth T).1
      (fun x => if x = v then min (d v) c else d x) := by
  have hvb : v < 4 ^ depth := by omega
  have happ_same :
      (fun x => if x = v then min (d v) c else d x) v = min (d v) c := by
    simp
  have happ_other : ∀ w, w ≠ v →
      (fun x => if x = v then min (d v) c else d x) w = d w := by
    intro w hwv
    simp [hwv]
  rcases hinv.2 v hv with ⟨hdv, hl⟩ | ⟨hl, hp⟩
  · rw [q4_mu_absent c hl]
    refine ⟨q4_wf_set hinv.1 v c, ?_⟩
    intro w hw
    by_cases hwv : w = v
    · subst hwv
      right
      rw [q4_lookup_set_same, happ_same,
        show min (d w) c = c by rw [hdv]; unfold INF at hcINF ⊢; omega]
      exact ⟨rfl, hpath⟩
    · rw [q4_lookup_set_other c hinv.1 hvb (by omega) hwv, happ_other w hwv]
      exact hinv.2 w hw
  · by_cases hlt : c < d v
    · rw [q4_mu_present_lt hl hlt]
      refine ⟨q4_wf_set hinv.1 v c, ?_⟩
      intro w hw
      by_cases hwv : w = v
      · subst hwv
        right
        rw [q4_lookup_set_same, happ_same, min_eq_right (by omega)]
        exact ⟨rfl, hpath⟩
      · rw [q4_lookup_set_other c hinv.1 hvb (by omega) hwv, happ_other w hwv]
        exact hinv.2 w hw
    · rw [q4_mu_present_ge hl hlt]
      refine ⟨hinv.1, ?_⟩
      intro w hw
      by_cases hwv : w = v
      · subst hwv
        right
        rw [happ_same, min_eq_left (by omega)]
        exact ⟨hl, hp⟩
      · rw [happ_other w hwv]
        exact hinv.2 w hw

theorem relax_edges_refines {adj : ℕ → List (ℕ × ℕ)} {n depth : ℕ}
    (he : EdgeOk adj n) (hdep : n ≤ 4 ^ depth) (hcap : n ≤ 1000)
    {u du : ℕ} (hu : u < n) (hdu : IsPathW adj 0 u du) :
    ∀ r i (st : Trie4 × ℕ) (d : ℕ → ℕ), r + i ≤ (adj u).length →
      BFInv adj n depth st.1 d →
      BFInv adj n depth (relax_edges adj depth u du r i st).1
        (relax_edges_fun adj u du r i d) := by
  intro r
  induction r with
  | zero => intro i st d _ hinv; exact hinv
  | succ r ih =>
    intro i st d hle hinv
    have hlt : i < (adj u).length := by omega
    have hmem : (adj u).getD i (0, 0) ∈ adj u := by
      rw [List.getD_eq_getElem (adj u) (0, 0) hlt]
      exact List.getElem_mem hlt
    obtain ⟨h1, h2, h3, h4⟩ := he u hu _ hmem
    have hdub : du ≤ 20 * u := by
      have := path_weight_bound he hdu (by omega)
      omega
    have hwle : graph_weight adj u i ≤ 20 := h4
    have hcand : du + graph_weight adj u i < INF := by
      unfold INF
      omega
    have hpath : IsPathW adj 0 (graph_target adj u i)
        (du + graph_weight adj u i) := IsPathW.snoc _ hdu hmem
    have htn : graph_target adj u i < n := h2
    show BFInv adj n depth (relax_edges adj depth u du r (i + 1) _).1
      (relax_edges_fun adj u du r (i + 1) _)
    exact ih (i + 1) _ _ (by omega) (bfinv_mu hdep hinv htn hcand hpath)

theorem relax_node_refines {adj : ℕ → List (ℕ × ℕ)} {n depth : ℕ}
    (he : EdgeOk adj n) (hdep : n ≤ 4 ^ depth) (hcap : n ≤ 1000)
    {u : ℕ} (hu : u < n) {st : Trie4 × ℕ} {d : ℕ → ℕ}
    (hinv : BFInv adj n depth st.1 d) :
    BFInv adj n depth (relax_node adj depth u st).1
      (relax_node_fun adj u d) := by
  have hget : q4_get u depth st.1 = d u := hinv.get hu
  simp only [relax_node, relax_node_fun, q4_get_lin_eq, hget]
  by_cases hdu : d u < INF
  · rw [if_pos hdu, if_pos hdu]
    have hpath : IsPathW adj 0 u (d u) := by
      rcases hinv.2 u hu with ⟨hdv, _⟩ | ⟨_, hp⟩
      · rw [hdv] at hdu; omega
      · exact hp
    exact relax_edges_refines he hdep hcap hu hpath (graph_deg adj u) 0
      (st.1, st.2) d (by unfold graph_deg; omega) hinv
  · rw [if_neg hdu, if_neg hdu]
    exact hinv

theorem node_loop_refines {adj : ℕ → List (ℕ × ℕ)} {n depth : ℕ}
    (he : EdgeOk adj n) (hdep : n ≤ 4 ^ depth) (hcap : n ≤ 1000) :
    ∀ r i (st : Trie4 × ℕ) (d : ℕ → ℕ), i + r ≤ n →
      BFInv adj n depth st.1 d →
      BFInv adj n depth (node_loop adj depth r i st).1
        (node_loop_fun adj r i d) := by
  intro r
  induction r with
  | zero => intro i st d _ hinv; exact hinv
  | succ r ih =>
    intro i st d hle hinv
    show BFInv adj n depth
      (node_loop adj depth r (i + 1) (relax_node adj depth i st)).1
      (node_loop_fun adj r (i + 1) (relax_node_fun adj i d))
    exact ih (i + 1) _ _ (by omega)
      (relax_node_refines he hdep hcap (by omega) hinv)

theorem relax_round_refines {adj : ℕ → List (ℕ × ℕ)} {n depth : ℕ}
    (he : EdgeOk adj n) (hdep : n ≤ 4 ^ depth) (hcap : n ≤ 1000)
    {st : Trie4 × ℕ} {d : ℕ → ℕ} (hinv : BFInv adj n depth st.1 d) :
    BFInv adj n depth (relax_round adj depth n st).1 (round_fun adj n d) :=
  node_loop_refines he hdep hcap n 0 (st.1, 0) d (by omega) hinv

theorem bf_loop_refines {adj : ℕ → List (ℕ × ℕ)} {n depth : ℕ}
    (he : EdgeOk adj n) (hdep : n ≤ 4 ^ depth) (hcap : n ≤ 1000)
    (d : ℕ → ℕ) (hfix : round_fun adj n d = d) :
    ∀ k (st : Trie4 × ℕ), BFInv adj n depth st.1 d →
      BFInv adj n depth (bf_loop adj depth n k st).1 d := by
  intro k
  induction k with
  | zero => intro st hinv; exact hinv
  | succ k ih =>
    intro st hinv
    have hp : BFInv adj n depth (relax_round adj depth n st).1 d := by
      have := relax_round_refines he hdep hcap hinv
      rwa [hfix] at this
    simp only [bf_loop]
    by_cases hz : (relax_round adj depth n st).2 = 0
    · rw [if_pos hz]
      exact hp
    · rw [if_neg hz]
      exact ih ((relax_round adj depth n st).1, 1) hp

theorem bfinv_init {adj : ℕ → List (ℕ × ℕ)} {n depth : ℕ}
    (hdep : n ≤ 4 ^ depth) :
    BFInv adj n depth (init_dist depth 0) fwd_base := by
  refine ⟨q4_wf_set (q4_wf_QE depth) 0 0, ?_⟩
  intro v hv
  by_cases hv0 : v = 0
  · subst hv0
    right
    rw [show init_dist depth 0 = q4_set 0 0 depth .QE from rfl,
      q4_lookup_set_same]
    exact ⟨rfl, IsPathW.refl 0⟩
  · left
    refine ⟨by unfold fwd_base; rw [if_neg hv0], ?_⟩
    rw [show init_dist depth 0 = q4_set 0 0 depth .QE from rfl,
      q4_lookup_set_other 0 (q4_wf_QE depth)
        (pow_pos (by norm_num) depth) (by omega) hv0]
    rfl

theorem bf_final {adj : ℕ → List (ℕ × ℕ)} {n : ℕ}
    (he : EdgeOk adj n) (hc : ChainOk adj n) (hcap : n ≤ 1000)
    (hn : 2 ≤ n) {v : ℕ} (hv : v < n) :
    q4_get v (ceil_log4 n) (bf_result adj n 0).1 = fwd adj v := by
  have hdep : n ≤ 4 ^ ceil_log4 n := le_pow4_ceil_log4 n
  have hinit : BFInv adj n (ceil_log4 n) (init_dist (ceil_log4 n) 0)
      (part_dist adj 0) := by
    rw [funext (part_dist_zero adj)]
    exact bfinv_init hdep
  have hrel : ∀ u, u < n → ∀ tw ∈ adj u,
      part_dist adj n tw.1 ≤ part_dist adj n u + tw.2 := by
    intro u hu tw htw
    obtain ⟨h1, h2, _, _⟩ := he u hu tw htw
    have e1 : part_dist adj n tw.1 = fwd adj tw.1 := by
      have := part_dist_high he (n - tw.1) tw.1 (by omega)
      rwa [show tw.1 + (n - tw.1) = n by omega] at this
    have e2 : part_dist adj n u = fwd adj u := by
      have := part_dist_high he (n - u) u (by omega)
      rwa [show u + (n - u) = n by omega] at this
    rw [e1, e2]
    exact fwd_edge_le adj htw h1
  have hfix : round_fun adj n (part_dist adj n) = part_dist adj n :=
    round_fun_id (part_dist adj n) hrel
  have hsweep : round_fun adj n (part_dist adj 0) = part_dist adj n := by
    have := node_loop_fun_sweep hc hcap n 0 (by omega)
    rwa [Nat.zero_add] at this
  have hround1 : ∀ cg : ℕ, BFInv adj n (ceil_log4 n)
      (relax_round adj (ceil_log4 n) n (init_dist (ceil_log4 n) 0, cg)).1
      (part_dist adj n) := by
    intro cg
    have := @relax_round_refines adj n (ceil_log4 n) he hdep hcap
      (init_dist (ceil_log4 n) 0, cg) (part_dist adj 0) hinit
    rwa [hsweep] at this
  have hbf : bf_result adj n 0 =
      bf_loop adj (ceil_log4 n) n ((n - 2) + 1)
        (init_dist (ceil_log4 n) 0, 1) := by
    unfold bf_result
    rw [if_pos (by omega : n > 1), show n - 1 = (n - 2) + 1 by omega]
  have hfin : BFInv adj n (ceil_log4 n) (bf_result adj n 0).1
      (part_dist adj n) := by
    rw [hbf]
    simp only [bf_loop]
    by_cases hz :
        (relax_round adj (ceil_log4 n) n (init_dist (ceil_log4 n) 0, 1)).2 = 0
    · rw [if_pos hz]
      exact hround1 1
    · rw [if_neg hz]
      exact bf_loop_refines he hdep hcap (part_dist adj n) hfix (n - 2)
        ((relax_round adj (ceil_log4 n) n (init_dist (ceil_log4 n) 0, 1)).1, 1)
        (hround1 1)
  rw [hfin.get hv]
  have := part_dist_high he (n - v) v (by omega)
  rwa [show v + (n - v) = n by omega] at this

/-! ### Output extraction -/

theorem extract_go_spec (depth : ℕ) (T : Trie4) :
    ∀ r i, extract_go depth r i (q4_get_lin i depth T) =
      (List.range' i (r + 1)).map fun w => q4_get w depth T := by
  intro r
  induction r with
  | zero =>
    intro i
    rw [q4_get_lin_eq]
    rfl
  | succ r ih =>
    intro i
    show (q4_get_lin i depth T).1 ::
      extract_go depth r (i + 1) (q4_get_lin (i + 1) depth (q4_get_lin i depth T).2) = _
    rw [q4_get_lin_eq]
    show q4_get i depth T ::
      extract_go depth r (i + 1) (q4_get_lin (i + 1) depth T) = _
    rw [ih (i + 1)]
    simp [List.range'_succ]

theorem map_range'_getD (f : ℕ → ℕ) (n j : ℕ) (hj : j < n) :
    ((List.range' 0 n).map f).getD j 0 = f j := by
  have hlen : j < ((List.range' 0 n).map f).length := by
    rw [List.length_map, List.length_range']
    exact hj
  rw [List.getD_eq_getElem _ 0 hlen, List.getElem_map, List.getElem_range']
  simp

theorem bf_program_output_eq {adj : ℕ → List (ℕ × ℕ)} {n : ℕ} (hn : 2 ≤ n) :
    bf_program_output adj n 0 =
      (List.range' 0 n).map fun w => q4_get w (ceil_log4 n) (bf_result adj n 0).1 := by
  unfold bf_program_output
  rw [if_neg (by omega : ¬ n = 0), extract_go_spec, show n - 1 + 1 = n by omega]

/-! ### Claim C1: shortest path agreement -/

/-- **C1.** Shortest path agreement: on every benchmark forward DAG
(all edges `src < dst` with weights in `1..20` and the generators'
connectivity chain `i → i+1` of weight at most 10) with `2 ≤ n ≤ 1000`
nodes — covering every node count in {2, 10, 100, 1000} and every edge
density in {1, 4, 8} per node — the source-to-sink value computed by the
DAG dynamic-programming generator's program equals the direct reference
relaxation `dag_dp_reference`, and the `dist[n-1]` entry of the hybrid
Bellman-Ford generator's program output equals the same reference
value. -/
theorem shortest_path_agreement (adj : ℕ → List (ℕ × ℕ)) (n : ℕ)
    (hn : 2 ≤ n) (hcap : n ≤ 1000) (he : EdgeOk adj n) (hc : ChainOk adj n) :
    dag_dp_program adj n 0 = dag_dp_reference adj n 0 (n - 1) ∧
    (bf_program_output adj n 0).getD (n - 1) 0 =
      dag_dp_reference adj n 0 (n - 1) := by
  have href : dag_dp_reference adj n 0 (n - 1) = bwd adj n 0 :=
    dag_dp_reference_eq_bwd he hc hcap hn
  constructor
  · rw [href]
    exact dag_dp_value_eq_bwd he hc hcap n 0 (by omega) (by omega)
  · rw [href, bf_program_output_eq hn,
      map_range'_getD _ n (n - 1) (by omega)]
    show q4_get (n - 1) (ceil_log4 n) (bf_result adj n 0).1 = bwd adj n 0
    rw [bf_final he hc hcap hn (by omega : n - 1 < n)]
    exact fwd_eq_bwd he hc hcap hn

/-- Concrete graph for the C1 witness: two nodes with the single chain
edge `0 → 1` of weight 5. -/
def adjW : ℕ → List (ℕ × ℕ) := fun u => if u = 0 then [(1, 5)] else []

/-- Witness for C1 at `n = 2`: both generated programs and the reference
agree (the common value is 5). -/
theorem shortest_path_agreement_witness :
    dag_dp_program adjW 2 0 = dag_dp_reference adjW 2 0 1 ∧
    (bf_program_output adjW 2 0).getD 1 0 = dag_dp_reference adjW 2 0 1 := by
  have he : EdgeOk adjW 2 := by
    intro u hu tw htw
    interval_cases u
    · simp [adjW] at htw
      subst htw
      refine ⟨by decide, by decide, by decide, by decide⟩
    · simp [adjW] at htw
  have hc : ChainOk adjW 2 := by
    intro i hi
    have hi0 : i = 0 := by omega
    subst hi0
    exact ⟨(1, 5), by simp [adjW], rfl, by omega⟩
  exact shortest_path_agreement adjW 2 (by omega) (by omega) he hc
